import Mathlib

/-!
# Verification of the `phash` persistent hash table

This file is a shallow embedding of `phash.go`, the on-disk open-addressing
hash table with linear probing of the `theflywheel/phash` repository, together
with proofs of the specified properties.

Modelling conventions:

* All Go `uint32` arithmetic is modelled on `Nat` with explicit `% 2^32`
  (`u32Mod`) at every operation where the Go code can overflow.
* Bytes are modelled as `Nat` (the code never relies on byte overflow).
* The mapped file is modelled as a `FileData`: the seven header fields plus
  the slot array.  Each slot of the Go file is the `slotSize`-byte record
  `status (1 byte) ++ key (keySize bytes) ++ value (valueSize bytes)`
  starting at byte offset `headerSize + idx*slotSize`; since every access in
  `phash.go` is slot-aligned and at these fixed intra-slot offsets, a slot is
  modelled as a `Slot` structure with the three fields.  This abstracts the
  `uint32` byte-offset computation `headerSize + currentIdx*ph.slotSize`,
  which in the Go code would wrap for files larger than 4 GiB; the model
  therefore describes the sub-4-GiB regime in which the code is meant to
  operate.
* `sync.RWMutex` serialises all operations, so the sequential functional
  model below is the specified behaviour.
* The file system is modelled as `Option FileData` in `Open`: `none` is a
  newly created (zero-length) file, `some fd` an existing file.  I/O errors
  (stat/truncate/mmap failures) are not modelled; the remaining error paths
  of the Go code are kept.
* The load-factor test `float32(usedSlots+1)/float32(numSlots) > 0.7` is
  modelled bit-exactly on IEEE-754 binary32 arithmetic ("round to nearest,
  ties to even", the rounding Go specifies): `toF32` rounds a `uint32` to
  24 significant bits, `divF32` rounds the exact quotient to 24
  significant bits, and the comparison is against `11744051/2^24`, the
  binary32 value of the constant `0.7`.  In the attainable range (both
  operands below `2^32`, so the quotient is zero or in `[2^-32, 2^32]`)
  no overflow, underflow or subnormal arises, so rounding with an
  unbounded exponent, as `roundBin32` does, is exactly binary32
  arithmetic.  A zero divisor yields `+Inf > 0.7` (true) for a nonzero
  numerator and `NaN > 0.7` (false) for a zero one.  This test is *not*
  the exact comparison `(usedSlots+1)/numSlots > 7/10`: the two diverge
  at capacities of `2^26` slots and above (see `c3_counterexample`).
-/

set_option maxRecDepth 100000

namespace Phash

/-- `2^32`, the modulus of Go `uint32` arithmetic. -/
def u32Mod : Nat := 4294967296

/-- Magic number `0x70687368` ("phsh") identifying phash files. -/
def magicNumber : Nat := 0x70687368

/-- Format version number. -/
def version : Nat := 1

/-- FNV-1a offset basis (Go constant `offset32`). -/
def offset32 : Nat := 2166136261

/-- FNV-1a prime (Go constant `prime32`). -/
def prime32 : Nat := 16777619

/-- `hashKey` computes the 32-bit FNV-1a hash of the key
(`hash ^= b; hash *= prime32` over the key bytes, on `uint32`). -/
def hashKey (key : List Nat) : Nat :=
  key.foldl (fun h b => ((h ^^^ b) * prime32) % u32Mod) offset32

/-- One slot of the data section: status byte (0 = empty, 1 = occupied),
`keySize` key bytes, `valueSize` value bytes. -/
structure Slot where
  status : Nat
  key : List Nat
  value : List Nat
deriving DecidableEq

/-- The all-zero slot that indexing out of range would read; the Go code
never indexes out of range, so this default is never observed in the
states the theorems below talk about. -/
def defSlot : Slot := ⟨0, [], []⟩

/-- An empty (all-zero-bytes) slot for a table with the given key and value
sizes, as produced by `file.Truncate` zero-filling a fresh file. -/
def emptySlot (keySize valueSize : Nat) : Slot :=
  ⟨0, List.replicate keySize 0, List.replicate valueSize 0⟩

/-- The mapped file: the seven big-endian `uint32` header fields
(magic, version, numSlots, usedSlots, slotSize, keySize, valueSize at
offsets 0,4,8,12,16,20,24) and the slot array that follows the header. -/
structure FileData where
  magic : Nat
  fversion : Nat
  hNumSlots : Nat
  hUsedSlots : Nat
  hSlotSize : Nat
  hKeySize : Nat
  hValueSize : Nat
  slots : List Slot
deriving DecidableEq

/-- The in-memory handle `PersistentHash`: the mapped file plus the five
geometry fields the handle caches (`keySize`, `valueSize`, `slotSize`,
`numSlots`, `usedSlots`).  The `file`, `filePath` and `mu` fields of the Go
struct have no observable pure content and are not modelled. -/
structure PersistentHash where
  data : FileData
  keySize : Nat
  valueSize : Nat
  slotSize : Nat
  numSlots : Nat
  usedSlots : Nat
deriving DecidableEq

/-- The error outcomes of the modelled operations, mirroring the error
values produced in `phash.go` (`errors.New`/`fmt.Errorf`). -/
inductive PhError where
  /-- "invalid key/value size" from `Put`. -/
  | validationError
  /-- "exceeded maximum retry count (%d) during Put operation". -/
  | retryExhausted
  /-- "hash table full" (full probe cycle with no empty slot or match). -/
  | capacityError
  /-- "failed to find slot for key during resize". -/
  | resizeFailed
  /-- "invalid magic number" from `Open`. -/
  | formatError
deriving DecidableEq

/-- The probe position examined at step `i` from home index `idx`:
`currentIdx := (idx + i) % numSlots` on `uint32`, i.e. the sum wraps at
`2^32` before the reduction mod `numSlots`. -/
def pos (n idx i : Nat) : Nat := ((idx + i) % u32Mod) % n

/-- Outcome of scanning the probe sequence: first empty slot, first slot
occupied by the probed key, or a full cycle without either. -/
inductive Stop where
  | empty (c : Nat)
  | hit (c : Nat)
  | exhausted
deriving DecidableEq

/-- The probe loop shared by `Get` and `putWithRetry`
(`for i := 0; i < numSlots; i++` with the `switch` on the status byte):
starting at step `i` with `fuel` steps remaining, return the first stop.
A status byte other than 0 or 1 is skipped, as in the Go `switch`. -/
def probe (slots : List Slot) (n : Nat) (key : List Nat) (idx : Nat) :
    Nat → Nat → Stop
  | _, 0 => .exhausted
  | i, fuel + 1 =>
    let s := slots.getD (pos n idx i) defSlot
    if s.status = 0 then .empty (pos n idx i)
    else if s.status = 1 ∧ key = s.key then .hit (pos n idx i)
    else probe slots n key idx (i + 1) fuel

/-- The probe loop of the resize rehash (`if tmpData[newSlotStart] == 0`):
it stops only at an empty slot and performs no key comparison. -/
def probeEmpty (slots : List Slot) (n idx : Nat) : Nat → Nat → Option Nat
  | _, 0 => none
  | i, fuel + 1 =>
    if (slots.getD (pos n idx i) defSlot).status = 0 then some (pos n idx i)
    else probeEmpty slots n idx (i + 1) fuel

/-- Floor of the base-2 logarithm by repeated halving, structurally
recursive on `fuel` so that proofs can evaluate it by reduction.  A
`fuel` of 128 bounds the bit length of every number the load check
below can build (all are under `2^60`). -/
def log2Aux : Nat → Nat → Nat
  | 0, _ => 0
  | fuel + 1, n => if 2 ≤ n then log2Aux fuel (n / 2) + 1 else 0

/-- `⌊log₂ n⌋` for `0 < n < 2^128` (and 0 at 0). -/
def log2N (n : Nat) : Nat := log2Aux 128 n

/-- Round the rational `num / den` to the nearest natural number, ties
to even (`den > 0`): the IEEE-754 default rounding. -/
def rnEven (num den : Nat) : Nat :=
  if 2 * (num % den) < den then num / den
  else if den < 2 * (num % den) then num / den + 1
  else if num / den % 2 = 0 then num / den else num / den + 1

/-- Does `2 ^ e ≤ num / den` hold (as rationals, `den > 0`)? -/
def exp2le (e : Int) (num den : Nat) : Bool :=
  if 0 ≤ e then decide (den * 2 ^ e.toNat ≤ num)
  else decide (den ≤ num * 2 ^ (-e).toNat)

/-- `⌊log₂ (num / den)⌋` for positive `num`, `den`: since
`2^l ≤ n < 2^(l+1)` for `l = log₂ n`, the estimate from the integer
logarithms is the floor or one above it, and is corrected by one
comparison. -/
def floorExp (num den : Nat) : Int :=
  if exp2le ((log2N num : Int) - (log2N den : Int)) num den then
    (log2N num : Int) - (log2N den : Int)
  else (log2N num : Int) - (log2N den : Int) - 1

/-- Round the positive rational `num / den` to the nearest binary32
value (round to nearest, ties to even, 24-bit significand, unbounded
exponent): the result `(s, e)` denotes `s * 2 ^ e` with
`2^23 ≤ s ≤ 2^24` (and `s = 0` when `num = 0`).  In the range the load
check produces — quotients in `[2^-32, 2^32]` — the binary32 exponent
never leaves the normal range `[-126, 127]`, so unbounded-exponent
rounding is exactly IEEE binary32 rounding. -/
def roundBin32 (num den : Nat) : Nat × Int :=
  if 0 ≤ 23 - floorExp num den then
    (rnEven (num * 2 ^ (23 - floorExp num den).toNat) den,
     floorExp num den - 23)
  else
    (rnEven num (den * 2 ^ (floorExp num den - 23).toNat),
     floorExp num den - 23)

/-- Go's conversion `float32(a)` of a `uint32` value: exact below
`2^24`, rounded to nearest-even binary32 above. -/
def toF32 (a : Nat) : Nat × Int := roundBin32 a 1

/-- Go's binary32 division of two nonnegative binary32 values, rounded
to nearest-even; `none` when the divisor is zero (the quotient is
`+Inf` or `NaN`). -/
def divF32 (x y : Nat × Int) : Option (Nat × Int) :=
  if y.1 = 0 then none
  else if x.1 = 0 then some (0, 0)
  else if 0 ≤ x.2 - y.2 then
    some (roundBin32 (x.1 * 2 ^ (x.2 - y.2).toNat) y.1)
  else some (roundBin32 x.1 (y.1 * 2 ^ (y.2 - x.2).toNat))

/-- Is the binary32 value `s * 2 ^ e` strictly greater than the
binary32 constant `0.7`, namely `11744051 / 2^24` (the Go comparison
`... > 0.7` on `float32` operands)? -/
def gtPoint7 (s : Nat) (e : Int) : Bool :=
  if 0 ≤ e + 24 then decide (11744051 < s * 2 ^ (e + 24).toNat)
  else decide (11744051 * 2 ^ (-(e + 24)).toNat < s)

/-- The load-factor test performed before inserting into an empty slot:
`float32(p.usedSlots+1)/float32(p.numSlots) > 0.7`, bit-exact IEEE-754
binary32 (see the header comment).  The `uint32` increment wraps at
`2^32`; a zero divisor gives `+Inf > 0.7` (true) for a nonzero
numerator and `NaN > 0.7` (false) for a zero one. -/
def loadFactorExceeded (usedSlots numSlots : Nat) : Bool :=
  match divF32 (toF32 ((usedSlots + 1) % u32Mod)) (toF32 numSlots) with
  | some q => gtPoint7 q.1 q.2
  | none => decide (0 < (usedSlots + 1) % u32Mod)

/-- Number of occupied slots in a slot array. -/
def occupiedCount (slots : List Slot) : Nat :=
  slots.countP (fun s => s.status == 1)

/-- Insert one entry into the new table during resize: probe for the first
empty slot from `hash % newNumSlots`, copy key and value, set the status
byte to 1 and increment the new header's used-slots field
(`binary.BigEndian.PutUint32(tmpData[12:16], usedSlotsCount)`).
`none` models "failed to find slot for key during resize". -/
def rehashOne (tmp : FileData) (n : Nat) (key value : List Nat) :
    Option FileData :=
  match probeEmpty tmp.slots n (hashKey key % n) 0 n with
  | some c =>
      some { tmp with slots := tmp.slots.set c ⟨1, key, value⟩,
                      hUsedSlots := (tmp.hUsedSlots + 1) % u32Mod }
  | none => none

/-- The rehash loop of `resize`:
`for i := 0; i < ph.numSlots && usedCount < ph.usedSlots; i++`, reinserting
every occupied slot of the old table into the new file.  `rest` is the part
of the old slot array not yet scanned, `usedCount` the number of occupied
slots seen so far, `target` the old table's cached `usedSlots`. -/
def rehashList (n target : Nat) : List Slot → Nat → FileData → Option FileData
  | [], _, tmp => some tmp
  | s :: rest, usedCount, tmp =>
    if usedCount < target then
      if s.status = 1 then
        match rehashOne tmp n s.key s.value with
        | some tmp2 => rehashList n target rest (usedCount + 1) tmp2
        | none => none
      else rehashList n target rest usedCount tmp
    else some tmp

/-- The fresh zero-filled file `resize` creates and writes a new header
into before rehashing: `newNumSlots` capacity, `usedSlots = 0`, the same
slot/key/value sizes, and zero-filled slots (from `tmpFile.Truncate`). -/
def resizeTmp (ph : PersistentHash) (newNumSlots : Nat) : FileData :=
  { magic := magicNumber, fversion := version, hNumSlots := newNumSlots,
    hUsedSlots := 0, hSlotSize := ph.slotSize, hKeySize := ph.keySize,
    hValueSize := ph.valueSize,
    slots := List.replicate newNumSlots (emptySlot ph.keySize ph.valueSize) }

/-- `resize`: double the capacity (`newNumSlots := ph.numSlots * 2` on
`uint32`), build a fresh zero-filled file with a new header
(`usedSlots = 0`, same slot/key/value sizes), rehash all occupied entries
into it, atomically swap it in and refresh the cached geometry:
`ph.numSlots = newNumSlots; ph.usedSlots = read(data[12:16])`.
The file-system steps (truncate, sync, rename, remap) have no further pure
content; their failure paths are I/O errors that are not modelled. -/
def resize (ph : PersistentHash) : Except PhError PersistentHash :=
  let newNumSlots := (ph.numSlots * 2) % u32Mod
  match rehashList newNumSlots ph.usedSlots ph.data.slots 0
      (resizeTmp ph newNumSlots) with
  | some tmp2 =>
      .ok { ph with data := tmp2, numSlots := newNumSlots,
                    usedSlots := tmp2.hUsedSlots }
  | none => .error .resizeFailed

/-- `putWithRetry`: the recursive insertion routine.  The result pairs the
table state after the call with `none` on success or the error returned;
pairing in the state makes the in-place mutation of the Go receiver
explicit (a failed call can still have resized the table).
The branches mirror the Go code exactly: the retry guard
(`retryCount > 3`), the probe loop, the load-factor test on reaching an
empty slot with resize-and-retry, the insert
(status byte, key, value, `usedSlots++` cached and persisted into
`data[12:16]`), and the in-place value overwrite on a key match. -/
def putWithRetry (ph : PersistentHash) (key value : List Nat)
    (retryCount : Nat) : PersistentHash × Option PhError :=
  if retryCount > 3 then (ph, some .retryExhausted)
  else
    match probe ph.data.slots ph.numSlots key (hashKey key % ph.numSlots) 0
        ph.numSlots with
    | .empty c =>
        if loadFactorExceeded ph.usedSlots ph.numSlots then
          match resize ph with
          | .ok ph2 => putWithRetry ph2 key value (retryCount + 1)
          | .error e => (ph, some e)
        else
          ({ ph with
              data := { ph.data with
                          slots := ph.data.slots.set c ⟨1, key, value⟩,
                          hUsedSlots := (ph.usedSlots + 1) % u32Mod },
              usedSlots := (ph.usedSlots + 1) % u32Mod }, none)
    | .hit c =>
        ({ ph with
            data := { ph.data with
                        slots := ph.data.slots.set c
                          ⟨(ph.data.slots.getD c defSlot).status,
                           (ph.data.slots.getD c defSlot).key, value⟩ } },
         none)
    | .exhausted => (ph, some .capacityError)
termination_by 4 - retryCount

/-- `Put`: validate the key and value lengths
(`uint32(len(key)) != ph.keySize || uint32(len(value)) != ph.valueSize`),
then insert with retries. -/
def Put (ph : PersistentHash) (key value : List Nat) :
    PersistentHash × Option PhError :=
  if key.length = ph.keySize ∧ value.length = ph.valueSize then
    putWithRetry ph key value 0
  else (ph, some .validationError)

/-- `Get`: `some v` models the Go return `(v, true)` and `none` models
`(nil, false)`.  A key of the wrong length reports not-found without
probing; otherwise the probe loop returns a copy of the value bytes of the
first occupied slot with matching key, and an empty slot or a full cycle
is a miss.  `Get` takes the read lock and mutates nothing. -/
def Get (ph : PersistentHash) (key : List Nat) : Option (List Nat) :=
  if key.length = ph.keySize then
    match probe ph.data.slots ph.numSlots key (hashKey key % ph.numSlots) 0
        ph.numSlots with
    | .hit c => some ((ph.data.slots.getD c defSlot).value)
    | _ => none
  else none

/-- The handle produced by `Open` on a zero-length file: 1024 initial
slots, `slotSize = 1 + keySize + valueSize` (on `uint32`), a fresh header,
zero-filled slots, and the cached fields read back from the header just
written. -/
def openNew (keySize valueSize : Nat) : PersistentHash :=
  let slotSize := (1 + keySize + valueSize) % u32Mod
  { data :=
      { magic := magicNumber, fversion := version, hNumSlots := 1024,
        hUsedSlots := 0, hSlotSize := slotSize, hKeySize := keySize,
        hValueSize := valueSize,
        slots := List.replicate 1024 (emptySlot keySize valueSize) },
    keySize := keySize, valueSize := valueSize, slotSize := slotSize,
    numSlots := 1024, usedSlots := 0 }

/-- `Open`: `none` models a newly created zero-length file, which is
initialised; `some fd` an existing file, whose magic number is validated
and whose header supplies every cached field
(`numSlots`, `usedSlots`, `slotSize`, `keySize`, `valueSize` from
`data[8:28]`).  The `keySize`/`valueSize` arguments are only used when the
file is new. -/
def Open (file : Option FileData) (keySize valueSize : Nat) :
    Except PhError PersistentHash :=
  match file with
  | none => .ok (openNew keySize valueSize)
  | some fd =>
      if fd.magic = magicNumber then
        .ok { data := fd, keySize := fd.hKeySize, valueSize := fd.hValueSize,
              slotSize := fd.hSlotSize, numSlots := fd.hNumSlots,
              usedSlots := fd.hUsedSlots }
      else .error .formatError

/-- `Close`: unmap and close, leaving the file contents on disk.  The
mapping is `MAP_SHARED`, so the file holds exactly the mapped bytes. -/
def Close (ph : PersistentHash) : FileData := ph.data

/-- A sequence of `Put` calls, stopping at the first error (the pair
threads the table state, which a failed `Put` can still have resized). -/
def putAll (ph : PersistentHash) :
    List (List Nat × List Nat) → PersistentHash × Option PhError
  | [] => (ph, none)
  | (k, v) :: rest =>
    match Put ph k v with
    | (ph2, none) => putAll ph2 rest
    | (ph2, some e) => (ph2, some e)

/-- The most recently written value for `key` in a list of `Put`
arguments (later entries win). -/
def lastVal : List (List Nat × List Nat) → List Nat → Option (List Nat)
  | [], _ => none
  | (k, v) :: rest, key =>
    match lastVal rest key with
    | some w => some w
    | none => if key = k then some v else none

/-- The value bytes of the first occupied slot holding `key`, scanning
the slot array in index order (a specification-side lookup used to state
what the rehash preserves). -/
def lookupOcc : List Slot → List Nat → Option (List Nat)
  | [], _ => none
  | s :: rest, key =>
    if s.status = 1 ∧ key = s.key then some s.value else lookupOcc rest key

/-- Number of probe steps from home index `home` to slot index `j`
(both `< n`), with wraparound. -/
def probeDist (n home j : Nat) : Nat := (j + n - home) % n

/-- The lookup a table's slot array denotes: the body of `Get` without the
key-length guard (used to state what `Put` and `resize` do to lookups). -/
def mapGet (slots : List Slot) (n : Nat) (key : List Nat) :
    Option (List Nat) :=
  match probe slots n key (hashKey key % n) 0 n with
  | .hit c => some ((slots.getD c defSlot).value)
  | _ => none

/-- A slot at which the probe loop for `key` stops: empty, or occupied by
`key`. -/
def isStop (key : List Nat) (s : Slot) : Prop :=
  s.status = 0 ∨ (s.status = 1 ∧ key = s.key)

/-- Structural and probing well-formedness of a slot array holding a table
of capacity `n` with the given key and value sizes:

* the array has exactly `n` slots, whose key and value fields have the
  declared lengths and whose status bytes are 0 or 1;
* `n` fits in a `uint32` and (unless 0) divides `2^32`, which holds for
  every capacity the code creates (1024 doubled repeatedly) and makes the
  `uint32` wrap in `pos` invisible;
* `uniq`: no two distinct occupied slots hold equal key bytes;
* `integ`: every occupied slot is reachable from its key's home index
  without crossing an empty slot (linear-probing integrity).
-/
structure TableOk (ks vs n : Nat) (slots : List Slot) : Prop where
  len : slots.length = n
  dvdOr : n = 0 ∨ n ∣ u32Mod
  ltM : n < u32Mod
  keys : ∀ s ∈ slots, s.key.length = ks
  vals : ∀ s ∈ slots, s.value.length = vs
  stat : ∀ s ∈ slots, s.status = 0 ∨ s.status = 1
  uniq : ∀ i j, i < n → j < n → i ≠ j →
    (slots.getD i defSlot).status = 1 → (slots.getD j defSlot).status = 1 →
    (slots.getD i defSlot).key ≠ (slots.getD j defSlot).key
  integ : ∀ j, j < n → (slots.getD j defSlot).status = 1 →
    ∀ t, t < probeDist n (hashKey (slots.getD j defSlot).key % n) j →
      (slots.getD
        (pos n (hashKey (slots.getD j defSlot).key % n) t) defSlot).status ≠ 0

/-- The full invariant of a live handle: the slot array is well formed,
the cached geometry agrees with the header bytes (the code re-derives the
cache from the header at open/remap time and persists `usedSlots` into
`data[12:16]` on every insert), `slotSize = 1 + keySize + valueSize`, and
`usedSlots` counts the occupied slots. -/
structure Inv (ph : PersistentHash) : Prop where
  table : TableOk ph.keySize ph.valueSize ph.numSlots ph.data.slots
  coherent : ph.slotSize = 1 + ph.keySize + ph.valueSize
  sizesLt : 1 + ph.keySize + ph.valueSize < u32Mod
  usedEq : ph.usedSlots = occupiedCount ph.data.slots
  hMagic : ph.data.magic = magicNumber
  hNum : ph.data.hNumSlots = ph.numSlots
  hUsed : ph.data.hUsedSlots = ph.usedSlots
  hSlot : ph.data.hSlotSize = ph.slotSize
  hKey : ph.data.hKeySize = ph.keySize
  hVal : ph.data.hValueSize = ph.valueSize

/-- Table states reachable through the public API.  `Get` takes only the
read lock and mutates nothing, so it contributes no transition.  The side
condition on `openTable` says the declared sizes describe a slot that fits
a `uint32`, the regime in which the created file is well formed (see the
header comment).  `putStep` covers failing calls as well, since a failed
`Put` can still have resized the table in place. -/
inductive Reachable : PersistentHash → Prop where
  | openTable (keySize valueSize : Nat)
      (hsz : 1 + keySize + valueSize < u32Mod) :
      Reachable (openNew keySize valueSize)
  | putStep (ph ph2 : PersistentHash) (key value : List Nat)
      (e : Option PhError) :
      Reachable ph → Put ph key value = (ph2, e) → Reachable ph2
  | reopenStep (ph ph2 : PersistentHash) (ks vs : Nat) :
      Reachable ph → Open (some (Close ph)) ks vs = .ok ph2 → Reachable ph2
  | resizeStep (ph ph2 : PersistentHash) :
      Reachable ph → resize ph = .ok ph2 → Reachable ph2

/-! ## Concrete example tables

`putWithRetry` is compiled by well-founded recursion, so applications of
`Put` do not reduce definitionally; the states below spell out the
result of concrete `Put` calls, verified against the step equations of
`putWithRetry`. -/

/-- A fresh `keySize = valueSize = 1` table. -/
def exT0 : PersistentHash := openNew 1 1

/-- `exT0` after `Put [3] [4]`. -/
def exT1 : PersistentHash :=
  { exT0 with
      data := { exT0.data with
                  slots := exT0.data.slots.set (hashKey [3] % 1024)
                    ⟨1, [3], [4]⟩,
                  hUsedSlots := (exT0.usedSlots + 1) % u32Mod },
      usedSlots := (exT0.usedSlots + 1) % u32Mod }

/-- `exT0` after `Put [2] [5]`. -/
def exT2 : PersistentHash :=
  { exT0 with
      data := { exT0.data with
                  slots := exT0.data.slots.set (hashKey [2] % 1024)
                    ⟨1, [2], [5]⟩,
                  hUsedSlots := (exT0.usedSlots + 1) % u32Mod },
      usedSlots := (exT0.usedSlots + 1) % u32Mod }

/-- `exT0` after `Put [5] [7]`. -/
def exT5 : PersistentHash :=
  { exT0 with
      data := { exT0.data with
                  slots := exT0.data.slots.set (hashKey [5] % 1024)
                    ⟨1, [5], [7]⟩,
                  hUsedSlots := (exT0.usedSlots + 1) % u32Mod },
      usedSlots := (exT0.usedSlots + 1) % u32Mod }

/-- `exT5` after `Put [9] [3]`. -/
def exT59 : PersistentHash :=
  { exT5 with
      data := { exT5.data with
                  slots := exT5.data.slots.set (hashKey [9] % 1024)
                    ⟨1, [9], [3]⟩,
                  hUsedSlots := (exT5.usedSlots + 1) % u32Mod },
      usedSlots := (exT5.usedSlots + 1) % u32Mod }

/-- A fresh table whose cached `usedSlots` is set above the 0.7
threshold, to exercise the resize-then-retry step. -/
def exTF : PersistentHash := { exT0 with usedSlots := 1024 }

/-! ## Arithmetic and list toolkit -/

theorem u32Mod_pos : 0 < u32Mod := by norm_num [u32Mod]

theorem pos_eq_mod {n : Nat} (h : n ∣ u32Mod) (idx i : Nat) :
    pos n idx i = (idx + i) % n :=
  Nat.mod_mod_of_dvd _ h

theorem pos_lt {n : Nat} (hn : 0 < n) (idx i : Nat) : pos n idx i < n :=
  Nat.mod_lt _ hn

theorem pos_inj {n : Nat} (h : n ∣ u32Mod) {idx i j : Nat}
    (hi : i < n) (hj : j < n) (he : pos n idx i = pos n idx j) : i = j := by
  rw [pos_eq_mod h, pos_eq_mod h] at he
  have hm : i ≡ j [MOD n] := Nat.ModEq.add_left_cancel' idx he
  have h2 : i % n = j % n := hm
  rwa [Nat.mod_eq_of_lt hi, Nat.mod_eq_of_lt hj] at h2

theorem probeDist_lt {n : Nat} (hn : 0 < n) (home j : Nat) :
    probeDist n home j < n :=
  Nat.mod_lt _ hn

theorem probeDist_pos {n home t : Nat} (hd : n ∣ u32Mod) (hh : home < n)
    (ht : t < n) : probeDist n home (pos n home t) = t := by
  rw [pos_eq_mod hd]
  unfold probeDist
  rcases Nat.lt_or_ge (home + t) n with hlt | hge
  · rw [Nat.mod_eq_of_lt hlt]
    have h1 : home + t + n - home = t + n := by omega
    rw [h1, Nat.add_mod_right, Nat.mod_eq_of_lt ht]
  · have h1 : (home + t) % n = home + t - n := by
      rw [Nat.mod_eq_sub_mod hge, Nat.mod_eq_of_lt (by omega)]
    rw [h1]
    have h2 : home + t - n + n - home = t := by omega
    rw [h2, Nat.mod_eq_of_lt ht]

theorem pos_probeDist {n home j : Nat} (hd : n ∣ u32Mod) (hh : home < n)
    (hj : j < n) : pos n home (probeDist n home j) = j := by
  rw [pos_eq_mod hd]
  unfold probeDist
  rcases le_or_lt home j with hle | hlt
  · have h1 : j + n - home = j - home + n := by omega
    rw [h1, Nat.add_mod_right, Nat.mod_eq_of_lt (show j - home < n by omega)]
    have h2 : home + (j - home) = j := by omega
    rw [h2, Nat.mod_eq_of_lt hj]
  · have h1 : j + n - home < n := by omega
    rw [Nat.mod_eq_of_lt h1]
    have h2 : home + (j + n - home) = j + n := by omega
    rw [h2, Nat.add_mod_right, Nat.mod_eq_of_lt hj]

theorem getD_set_self {α : Type} (l : List α) (i : Nat) (a d : α)
    (h : i < l.length) : (l.set i a).getD i d = a := by
  simp [List.getD, List.getElem?_set, h]

theorem getD_set_ne {α : Type} (l : List α) (i j : Nat) (a d : α)
    (h : i ≠ j) : (l.set i a).getD j d = l.getD j d := by
  simp [List.getD, List.getElem?_set, h]

theorem getD_replicate {α : Type} (n i : Nat) (x d : α) (h : i < n) :
    (List.replicate n x).getD i d = x := by
  simp [List.getD, List.getElem?_replicate, h]

theorem getD_mem {α : Type} (l : List α) (i : Nat) (d : α)
    (h : i < l.length) : l.getD i d ∈ l := by
  induction l generalizing i with
  | nil => simp at h
  | cons x xs ih =>
    cases i with
    | zero => simp [List.getD_cons_zero]
    | succ j =>
      rw [List.getD_cons_succ]
      exact List.mem_cons_of_mem _ (ih j (by simpa using h))

theorem occupiedCount_set_of_empty (slots : List Slot) (c : Nat) (s : Slot)
    (hc : c < slots.length) (h0 : (slots.getD c defSlot).status = 0)
    (hs : s.status = 1) :
    occupiedCount (slots.set c s) = occupiedCount slots + 1 := by
  induction slots generalizing c with
  | nil => simp at hc
  | cons x xs ih =>
    cases c with
    | zero =>
      rw [List.getD_cons_zero] at h0
      simp [occupiedCount, List.set, List.countP_cons, h0, hs]
    | succ j =>
      rw [List.getD_cons_succ] at h0
      have hj : j < xs.length := by simpa using hc
      have := ih j hj h0
      simp only [occupiedCount, List.set, List.countP_cons] at this ⊢
      omega

theorem occupiedCount_set_same (slots : List Slot) (c : Nat) (s : Slot)
    (hc : c < slots.length)
    (hsame : (s.status = 1) ↔ ((slots.getD c defSlot).status = 1)) :
    occupiedCount (slots.set c s) = occupiedCount slots := by
  induction slots generalizing c with
  | nil => simp at hc
  | cons x xs ih =>
    cases c with
    | zero =>
      rw [List.getD_cons_zero] at hsame
      simp only [occupiedCount, List.set, List.countP_cons]
      by_cases h1 : s.status = 1
      · simp [h1, hsame.1 h1]
      · have h2 : ¬ x.status = 1 := fun hx => h1 (hsame.2 hx)
        simp [h1, h2]
    | succ j =>
      rw [List.getD_cons_succ] at hsame
      have hj : j < xs.length := by simpa using hc
      have := ih j hj hsame
      simp only [occupiedCount, List.set, List.countP_cons] at this ⊢
      omega

theorem occupiedCount_replicate (n : Nat) (ks vs : Nat) :
    occupiedCount (List.replicate n (emptySlot ks vs)) = 0 := by
  simp only [occupiedCount, List.countP_eq_zero]
  intro s hs
  rw [List.eq_of_mem_replicate hs]
  simp [emptySlot]

theorem occupiedCount_pos (slots : List Slot) (j : Nat)
    (hj : j < slots.length) (h1 : (slots.getD j defSlot).status = 1) :
    0 < occupiedCount slots := by
  induction slots generalizing j with
  | nil => simp at hj
  | cons x xs ih =>
    cases j with
    | zero =>
      rw [List.getD_cons_zero] at h1
      simp [occupiedCount, List.countP_cons, h1]
    | succ i =>
      rw [List.getD_cons_succ] at h1
      have := ih i (by simpa using hj) h1
      simp only [occupiedCount, List.countP_cons] at this ⊢
      omega

/-! ## Probe-loop characterisation -/

theorem probe_zero (slots : List Slot) (n : Nat) (key : List Nat)
    (idx i : Nat) : probe slots n key idx i 0 = .exhausted := rfl

theorem probe_succ (slots : List Slot) (n : Nat) (key : List Nat)
    (idx i fuel : Nat) :
    probe slots n key idx i (fuel + 1) =
      (if (slots.getD (pos n idx i) defSlot).status = 0 then
        .empty (pos n idx i)
      else if (slots.getD (pos n idx i) defSlot).status = 1 ∧
          key = (slots.getD (pos n idx i) defSlot).key then
        .hit (pos n idx i)
      else probe slots n key idx (i + 1) fuel) := rfl

theorem probe_empty_spec {slots : List Slot} {n : Nat} {key : List Nat}
    {idx : Nat} :
    ∀ {fuel i c : Nat}, probe slots n key idx i fuel = .empty c →
      ∃ t, i ≤ t ∧ t < i + fuel ∧ c = pos n idx t ∧
        (slots.getD c defSlot).status = 0 ∧
        ∀ u, i ≤ u → u < t → ¬ isStop key (slots.getD (pos n idx u) defSlot)
  | 0, i, c => by simp [probe_zero]
  | fuel + 1, i, c => by
    rw [probe_succ]
    by_cases h0 : (slots.getD (pos n idx i) defSlot).status = 0
    · rw [if_pos h0]
      intro he
      refine ⟨i, le_refl i, by omega, ?_, ?_, ?_⟩
      · cases he; rfl
      · cases he; exact h0
      · intro u h1 h2; omega
    · rw [if_neg h0]
      by_cases h1 : (slots.getD (pos n idx i) defSlot).status = 1 ∧
          key = (slots.getD (pos n idx i) defSlot).key
      · rw [if_pos h1]; intro he; cases he
      · rw [if_neg h1]
        intro he
        obtain ⟨t, ht1, ht2, ht3, ht4, ht5⟩ := probe_empty_spec he
        refine ⟨t, by omega, by omega, ht3, ht4, ?_⟩
        intro u hu1 hu2
        rcases Nat.eq_or_lt_of_le hu1 with rfl | hu3
        · intro hstop
          rcases hstop with hs | hs
          · exact h0 hs
          · exact h1 hs
        · exact ht5 u hu3 hu2

theorem probe_hit_spec {slots : List Slot} {n : Nat} {key : List Nat}
    {idx : Nat} :
    ∀ {fuel i c : Nat}, probe slots n key idx i fuel = .hit c →
      ∃ t, i ≤ t ∧ t < i + fuel ∧ c = pos n idx t ∧
        (slots.getD c defSlot).status = 1 ∧
        key = (slots.getD c defSlot).key ∧
        ∀ u, i ≤ u → u < t → ¬ isStop key (slots.getD (pos n idx u) defSlot)
  | 0, i, c => by simp [probe_zero]
  | fuel + 1, i, c => by
    rw [probe_succ]
    by_cases h0 : (slots.getD (pos n idx i) defSlot).status = 0
    · rw [if_pos h0]; intro he; cases he
    · rw [if_neg h0]
      by_cases h1 : (slots.getD (pos n idx i) defSlot).status = 1 ∧
          key = (slots.getD (pos n idx i) defSlot).key
      · rw [if_pos h1]
        intro he
        refine ⟨i, le_refl i, by omega, ?_, ?_, ?_, ?_⟩
        · cases he; rfl
        · cases he; exact h1.1
        · cases he; exact h1.2
        · intro u hu1 hu2; omega
      · rw [if_neg h1]
        intro he
        obtain ⟨t, ht1, ht2, ht3, ht4, ht5, ht6⟩ := probe_hit_spec he
        refine ⟨t, by omega, by omega, ht3, ht4, ht5, ?_⟩
        intro u hu1 hu2
        rcases Nat.eq_or_lt_of_le hu1 with rfl | hu3
        · intro hstop
          rcases hstop with hs | hs
          · exact h0 hs
          · exact h1 hs
        · exact ht6 u hu3 hu2

theorem probe_exhausted_spec {slots : List Slot} {n : Nat} {key : List Nat}
    {idx : Nat} :
    ∀ {fuel i : Nat}, probe slots n key idx i fuel = .exhausted →
      ∀ u, i ≤ u → u < i + fuel →
        ¬ isStop key (slots.getD (pos n idx u) defSlot)
  | 0, i => by intro _ u h1 h2; omega
  | fuel + 1, i => by
    rw [probe_succ]
    by_cases h0 : (slots.getD (pos n idx i) defSlot).status = 0
    · rw [if_pos h0]; intro he; cases he
    · rw [if_neg h0]
      by_cases h1 : (slots.getD (pos n idx i) defSlot).status = 1 ∧
          key = (slots.getD (pos n idx i) defSlot).key
      · rw [if_pos h1]; intro he; cases he
      · rw [if_neg h1]
        intro he u hu1 hu2
        rcases Nat.eq_or_lt_of_le hu1 with rfl | hu3
        · intro hstop
          rcases hstop with hs | hs
          · exact h0 hs
          · exact h1 hs
        · exact probe_exhausted_spec he u hu3 (by omega)

theorem probe_eq_hit_of {slots : List Slot} {n : Nat} {key : List Nat}
    {idx t : Nat} :
    ∀ {fuel i : Nat}, i ≤ t → t < i + fuel →
      (∀ u, i ≤ u → u < t → ¬ isStop key (slots.getD (pos n idx u) defSlot)) →
      (slots.getD (pos n idx t) defSlot).status = 1 →
      key = (slots.getD (pos n idx t) defSlot).key →
      probe slots n key idx i fuel = .hit (pos n idx t)
  | 0, i => by intro h1 h2; omega
  | fuel + 1, i => by
    intro h1 h2 hbefore hstat hkey
    rw [probe_succ]
    rcases Nat.eq_or_lt_of_le h1 with rfl | hlt
    · rw [if_neg (by rw [hstat]; omega), if_pos ⟨hstat, hkey⟩]
    · have hns := hbefore i (le_refl i) hlt
      have h0 : ¬ (slots.getD (pos n idx i) defSlot).status = 0 := by
        intro hs; exact hns (Or.inl hs)
      have hh : ¬ ((slots.getD (pos n idx i) defSlot).status = 1 ∧
          key = (slots.getD (pos n idx i) defSlot).key) := by
        intro hs; exact hns (Or.inr hs)
      rw [if_neg h0, if_neg hh]
      exact probe_eq_hit_of hlt (by omega)
        (fun u hu1 hu2 => hbefore u (by omega) hu2) hstat hkey

theorem probe_eq_empty_of {slots : List Slot} {n : Nat} {key : List Nat}
    {idx t : Nat} :
    ∀ {fuel i : Nat}, i ≤ t → t < i + fuel →
      (∀ u, i ≤ u → u < t → ¬ isStop key (slots.getD (pos n idx u) defSlot)) →
      (slots.getD (pos n idx t) defSlot).status = 0 →
      probe slots n key idx i fuel = .empty (pos n idx t)
  | 0, i => by intro h1 h2; omega
  | fuel + 1, i => by
    intro h1 h2 hbefore hstat
    rw [probe_succ]
    rcases Nat.eq_or_lt_of_le h1 with rfl | hlt
    · rw [if_pos hstat]
    · have hns := hbefore i (le_refl i) hlt
      have h0 : ¬ (slots.getD (pos n idx i) defSlot).status = 0 := by
        intro hs; exact hns (Or.inl hs)
      have hh : ¬ ((slots.getD (pos n idx i) defSlot).status = 1 ∧
          key = (slots.getD (pos n idx i) defSlot).key) := by
        intro hs; exact hns (Or.inr hs)
      rw [if_neg h0, if_neg hh]
      exact probe_eq_empty_of hlt (by omega)
        (fun u hu1 hu2 => hbefore u (by omega) hu2) hstat

theorem probe_congr {slots1 slots2 : List Slot} {n : Nat} {key : List Nat}
    {idx : Nat}
    (hag : ∀ j, (slots2.getD j defSlot).status =
        (slots1.getD j defSlot).status ∧
        (slots2.getD j defSlot).key = (slots1.getD j defSlot).key) :
    ∀ fuel i, probe slots2 n key idx i fuel = probe slots1 n key idx i fuel
  | 0, i => rfl
  | fuel + 1, i => by
    rw [probe_succ, probe_succ, (hag (pos n idx i)).1, (hag (pos n idx i)).2,
      probe_congr hag fuel (i + 1)]

theorem probeEmpty_eq_probe {slots : List Slot} {n : Nat} {key : List Nat}
    {idx : Nat} (hn : 0 < n)
    (hnohit : ∀ j, j < n → ¬((slots.getD j defSlot).status = 1 ∧
        key = (slots.getD j defSlot).key)) :
    ∀ fuel i, probeEmpty slots n idx i fuel =
      (match probe slots n key idx i fuel with
       | .empty c => some c
       | _ => none)
  | 0, i => rfl
  | fuel + 1, i => by
    rw [probe_succ]
    show (if (slots.getD (pos n idx i) defSlot).status = 0 then _ else _) = _
    by_cases h0 : (slots.getD (pos n idx i) defSlot).status = 0
    · rw [if_pos h0, if_pos h0]
    · rw [if_neg h0, if_neg h0,
        if_neg (hnohit (pos n idx i) (pos_lt hn idx i))]
      exact probeEmpty_eq_probe hn hnohit fuel (i + 1)

/-! ## Lookup semantics of a well-formed table -/

theorem mapGet_of_occupied {ks vs n : Nat} {slots : List Slot}
    (h : TableOk ks vs n slots) {j : Nat} {key : List Nat}
    (hj : j < n) (hst : (slots.getD j defSlot).status = 1)
    (hkey : key = (slots.getD j defSlot).key) :
    mapGet slots n key = some ((slots.getD j defSlot).value) := by
  have hn : 0 < n := by omega
  have hdvd : n ∣ u32Mod := by
    rcases h.dvdOr with h0 | h0
    · omega
    · exact h0
  have hhome : hashKey (slots.getD j defSlot).key % n = hashKey key % n := by
    rw [hkey]
  have hhlt : hashKey key % n < n := Nat.mod_lt _ hn
  have htlt : probeDist n (hashKey key % n) j < n :=
    probeDist_lt hn _ j
  have hpt : pos n (hashKey key % n) (probeDist n (hashKey key % n) j) = j :=
    pos_probeDist hdvd hhlt hj
  have hbefore : ∀ u, 0 ≤ u → u < probeDist n (hashKey key % n) j →
      ¬ isStop key (slots.getD (pos n (hashKey key % n) u) defSlot) := by
    intro u _ hu hstop
    rcases hstop with hs | hs
    · have hinteg := h.integ j hj hst u
      rw [hhome] at hinteg
      exact hinteg hu hs
    · have hpu : pos n (hashKey key % n) u < n := pos_lt hn _ _
      have hne : pos n (hashKey key % n) u ≠ j := by
        intro heq
        have : u = probeDist n (hashKey key % n) j :=
          pos_inj hdvd (lt_trans hu htlt) htlt (by rw [heq, hpt])
        omega
      exact h.uniq (pos n (hashKey key % n) u) j hpu hj hne hs.1 hst
        (by rw [← hs.2, ← hkey])
  have hprobe : probe slots n key (hashKey key % n) 0 n =
      .hit (pos n (hashKey key % n) (probeDist n (hashKey key % n) j)) :=
    probe_eq_hit_of (Nat.zero_le _) (by omega) hbefore
      (by rw [hpt]; exact hst) (by rw [hpt]; exact hkey)
  rw [hpt] at hprobe
  unfold mapGet
  rw [hprobe]

theorem mapGet_some_spec {slots : List Slot} {n : Nat} {key v : List Nat}
    (h : mapGet slots n key = some v) :
    ∃ j, j < n ∧ (slots.getD j defSlot).status = 1 ∧
      key = (slots.getD j defSlot).key ∧ v = (slots.getD j defSlot).value := by
  unfold mapGet at h
  cases hp : probe slots n key (hashKey key % n) 0 n with
  | empty c => rw [hp] at h; cases h
  | exhausted => rw [hp] at h; cases h
  | hit c =>
    rw [hp] at h
    obtain ⟨t, _, ht2, ht3, ht4, ht5, _⟩ := probe_hit_spec hp
    have hn : 0 < n := by omega
    refine ⟨c, ?_, ht4, ht5, ?_⟩
    · rw [ht3]; exact pos_lt hn _ _
    · injection h with h2; exact h2.symm

theorem no_hit_of_mapGet_none {ks vs n : Nat} {slots : List Slot}
    (h : TableOk ks vs n slots) {key : List Nat}
    (hm : mapGet slots n key = none) :
    ∀ j, j < n → ¬((slots.getD j defSlot).status = 1 ∧
      key = (slots.getD j defSlot).key) := by
  intro j hj hcon
  have := mapGet_of_occupied h hj hcon.1 hcon.2
  rw [hm] at this
  cases this

theorem mapGet_none_of_no_hit {slots : List Slot} {n : Nat} {key : List Nat}
    (hnohit : ∀ j, j < n → ¬((slots.getD j defSlot).status = 1 ∧
      key = (slots.getD j defSlot).key)) :
    mapGet slots n key = none := by
  unfold mapGet
  cases hp : probe slots n key (hashKey key % n) 0 n with
  | empty c => rfl
  | exhausted => rfl
  | hit c =>
    obtain ⟨t, _, ht2, ht3, ht4, ht5, _⟩ := probe_hit_spec hp
    have hn : 0 < n := by omega
    exact absurd ⟨ht4, ht5⟩ (hnohit c (by rw [ht3]; exact pos_lt hn _ _))

/-! ## Inserting into an empty slot -/

theorem insert_ok {ks vs n : Nat} {slots : List Slot} {key value : List Nat}
    {c : Nat} (h : TableOk ks vs n slots) (hkl : key.length = ks)
    (hvl : value.length = vs)
    (hp : probe slots n key (hashKey key % n) 0 n = .empty c) :
    TableOk ks vs n (slots.set c ⟨1, key, value⟩) ∧
    (∀ key2, mapGet (slots.set c ⟨1, key, value⟩) n key2 =
      if key2 = key then some value else mapGet slots n key2) ∧
    occupiedCount (slots.set c ⟨1, key, value⟩) = occupiedCount slots + 1 ∧
    c < n ∧ (slots.getD c defSlot).status = 0 := by
  obtain ⟨t, _, htn, htc, hst0, hbefore⟩ := probe_empty_spec hp
  have hn : 0 < n := by omega
  have hdvd : n ∣ u32Mod := by
    rcases h.dvdOr with h0 | h0
    · omega
    · exact h0
  have htltn : t < n := by omega
  have hcn : c < n := by rw [htc]; exact pos_lt hn _ _
  have hclen : c < slots.length := by rw [h.len]; exact hcn
  have hnone : mapGet slots n key = none := by unfold mapGet; rw [hp]
  have hnohit := no_hit_of_mapGet_none h hnone
  have hgetc : (slots.set c ⟨1, key, value⟩).getD c defSlot = ⟨1, key, value⟩ :=
    getD_set_self _ _ _ _ hclen
  have hgetne : ∀ j, j ≠ c → (slots.set c ⟨1, key, value⟩).getD j defSlot =
      slots.getD j defSlot := fun j hj => getD_set_ne _ _ _ _ _ (fun e => hj e.symm)
  have hhlt : hashKey key % n < n := Nat.mod_lt _ hn
  have htab2 : TableOk ks vs n (slots.set c ⟨1, key, value⟩) := by
    refine ⟨(List.length_set slots c _).trans h.len, h.dvdOr, h.ltM, ?_, ?_, ?_, ?_, ?_⟩
    · intro s hs
      rcases List.mem_or_eq_of_mem_set hs with hs2 | rfl
      · exact h.keys s hs2
      · exact hkl
    · intro s hs
      rcases List.mem_or_eq_of_mem_set hs with hs2 | rfl
      · exact h.vals s hs2
      · exact hvl
    · intro s hs
      rcases List.mem_or_eq_of_mem_set hs with hs2 | rfl
      · exact h.stat s hs2
      · exact Or.inr rfl
    · intro i j hi hj hne hsti hstj heq
      by_cases hic : i = c
      · have hjc : j ≠ c := fun e => hne (hic.trans e.symm)
        rw [hic] at hsti heq
        rw [hgetne j hjc] at hstj heq
        rw [hgetc] at heq
        exact hnohit j hj ⟨hstj, heq⟩
      · by_cases hjc : j = c
        · rw [hjc] at hstj heq
          rw [hgetne i hic] at hsti heq
          rw [hgetc] at heq
          exact hnohit i hi ⟨hsti, heq.symm⟩
        · rw [hgetne i hic] at hsti heq
          rw [hgetne j hjc] at hstj heq
          exact h.uniq i j hi hj hne hsti hstj heq
    · intro j hj hstj u hu
      have hkc : ((slots.set c ⟨1, key, value⟩).getD c defSlot).key = key := by
        rw [hgetc]
      by_cases hjc : j = c
      · rw [hjc, hkc] at hu ⊢
        have hdist : probeDist n (hashKey key % n) c = t := by
          rw [htc]; exact probeDist_pos hdvd hhlt htltn
        rw [hdist] at hu
        have hpu : pos n (hashKey key % n) u ≠ c := by
          intro heq
          have : u = t := by
            apply pos_inj hdvd (by omega) htltn
            rw [heq, htc]
          omega
        rw [hgetne _ hpu]
        intro hz
        exact hbefore u (by omega) hu (Or.inl hz)
      · rw [hgetne j hjc] at hstj hu ⊢
        by_cases hpc : pos n (hashKey ((slots.getD j defSlot).key) % n) u = c
        · rw [hpc, hgetc]
          intro hz; cases hz
        · rw [hgetne _ hpc]
          exact h.integ j hj hstj u hu
  refine ⟨htab2, ?_, ?_, hcn, hst0⟩
  · intro key2
    by_cases hk2 : key2 = key
    · subst hk2
      rw [if_pos rfl]
      have hres := @mapGet_of_occupied _ _ _ _ htab2 _ key2 hcn
        (by rw [hgetc]) (by rw [hgetc])
      rw [hgetc] at hres
      exact hres
    · rw [if_neg hk2]
      cases hm : mapGet slots n key2 with
      | none =>
        apply mapGet_none_of_no_hit
        intro j hj hcon
        by_cases hjc : j = c
        · rw [hjc, hgetc] at hcon
          exact hk2 hcon.2
        · rw [hgetne j hjc] at hcon
          exact no_hit_of_mapGet_none h hm j hj hcon
      | some w =>
        obtain ⟨j, hj, hstj, hkeyj, hvw⟩ := mapGet_some_spec hm
        have hjc : j ≠ c := by
          intro e
          rw [e] at hstj
          rw [hstj] at hst0; cases hst0
        have hres := @mapGet_of_occupied _ _ _ _ htab2 _ key2 hj
          (by rw [hgetne j hjc]; exact hstj)
          (by rw [hgetne j hjc]; exact hkeyj)
        rw [hgetne j hjc] at hres
        rw [hres, hvw]
  · exact occupiedCount_set_of_empty slots c _ hclen hst0 rfl

/-! ## Overwriting the value of an existing key -/

theorem update_ok {ks vs n : Nat} {slots : List Slot} {key value : List Nat}
    {c : Nat} (h : TableOk ks vs n slots) (hvl : value.length = vs)
    (hp : probe slots n key (hashKey key % n) 0 n = .hit c) :
    TableOk ks vs n (slots.set c
      ⟨(slots.getD c defSlot).status, (slots.getD c defSlot).key, value⟩) ∧
    (∀ key2, mapGet (slots.set c
        ⟨(slots.getD c defSlot).status, (slots.getD c defSlot).key, value⟩) n
        key2 = if key2 = key then some value else mapGet slots n key2) ∧
    occupiedCount (slots.set c
      ⟨(slots.getD c defSlot).status, (slots.getD c defSlot).key, value⟩) =
      occupiedCount slots ∧
    c < n ∧ (slots.getD c defSlot).status = 1 ∧
    key = (slots.getD c defSlot).key := by
  obtain ⟨t, _, htn, htc, hst1, hkeyc, _⟩ := probe_hit_spec hp
  have hn : 0 < n := by omega
  have hcn : c < n := by rw [htc]; exact pos_lt hn _ _
  have hclen : c < slots.length := by rw [h.len]; exact hcn
  have hgetc : (slots.set c
      ⟨(slots.getD c defSlot).status, (slots.getD c defSlot).key, value⟩).getD
      c defSlot =
      ⟨(slots.getD c defSlot).status, (slots.getD c defSlot).key, value⟩ :=
    getD_set_self _ _ _ _ hclen
  have hgetne : ∀ j, j ≠ c → (slots.set c
      ⟨(slots.getD c defSlot).status, (slots.getD c defSlot).key, value⟩).getD
      j defSlot = slots.getD j defSlot :=
    fun j hj => getD_set_ne _ _ _ _ _ (fun e => hj e.symm)
  have hag : ∀ j, ((slots.set c
      ⟨(slots.getD c defSlot).status, (slots.getD c defSlot).key, value⟩).getD
      j defSlot).status = (slots.getD j defSlot).status ∧
      ((slots.set c
      ⟨(slots.getD c defSlot).status, (slots.getD c defSlot).key, value⟩).getD
      j defSlot).key = (slots.getD j defSlot).key := by
    intro j
    by_cases hjc : j = c
    · subst hjc; rw [hgetc]; exact ⟨rfl, rfl⟩
    · rw [hgetne j hjc]; exact ⟨rfl, rfl⟩
  have htab2 : TableOk ks vs n (slots.set c
      ⟨(slots.getD c defSlot).status, (slots.getD c defSlot).key, value⟩) := by
    refine ⟨(List.length_set slots c _).trans h.len, h.dvdOr, h.ltM, ?_, ?_, ?_, ?_, ?_⟩
    · intro s hs
      rcases List.mem_or_eq_of_mem_set hs with hs2 | rfl
      · exact h.keys s hs2
      · exact h.keys (slots.getD c defSlot) (getD_mem slots c defSlot hclen)
    · intro s hs
      rcases List.mem_or_eq_of_mem_set hs with hs2 | rfl
      · exact h.vals s hs2
      · exact hvl
    · intro s hs
      rcases List.mem_or_eq_of_mem_set hs with hs2 | rfl
      · exact h.stat s hs2
      · exact h.stat (slots.getD c defSlot) (getD_mem slots c defSlot hclen)
    · intro i j hi hj hne hsti hstj heq
      rw [(hag i).1] at hsti
      rw [(hag j).1] at hstj
      rw [(hag i).2, (hag j).2] at heq
      exact h.uniq i j hi hj hne hsti hstj heq
    · intro j hj hstj u hu
      rw [(hag j).1] at hstj
      rw [(hag j).2] at hu ⊢
      rw [(hag (pos n (hashKey ((slots.getD j defSlot).key) % n) u)).1]
      exact h.integ j hj hstj u hu
  refine ⟨htab2, ?_, ?_, hcn, hst1, hkeyc⟩
  · intro key2
    by_cases hk2 : key2 = key
    · subst hk2
      rw [if_pos rfl]
      have hres := @mapGet_of_occupied _ _ _ _ htab2 _ key2 hcn
        (by rw [hgetc]; exact hst1) (by rw [hgetc]; exact hkeyc)
      rw [hgetc] at hres
      exact hres
    · rw [if_neg hk2]
      cases hm : mapGet slots n key2 with
      | none =>
        apply mapGet_none_of_no_hit
        intro j hj hcon
        rcases hcon with ⟨hs1, hs2⟩
        rw [(hag j).1] at hs1
        rw [(hag j).2] at hs2
        exact no_hit_of_mapGet_none h hm j hj ⟨hs1, hs2⟩
      | some w =>
        obtain ⟨j, hj, hstj, hkeyj, hvw⟩ := mapGet_some_spec hm
        have hjc : j ≠ c := by
          intro e
          rw [e] at hkeyj
          rw [← hkeyj] at hkeyc
          exact hk2 hkeyc.symm
        have hres := @mapGet_of_occupied _ _ _ _ htab2 _ key2 hj
          (by rw [(hag j).1]; exact hstj)
          (by rw [(hag j).2]; exact hkeyj)
        rw [hgetne j hjc] at hres
        rw [hres, hvw]
  · exact occupiedCount_set_same slots c _ hclen
      (by constructor <;> intro hx <;> exact hx)

/-! ## The slot-scan lookup `lookupOcc` -/

theorem lookupOcc_append (l1 l2 : List Slot) (k : List Nat) :
    lookupOcc (l1 ++ l2) k =
      match lookupOcc l1 k with
      | some v => some v
      | none => lookupOcc l2 k := by
  induction l1 with
  | nil => rfl
  | cons s rest ih =>
    by_cases hc : s.status = 1 ∧ k = s.key
    · simp [lookupOcc, hc]
    · simp [lookupOcc, hc, ih]

theorem lookupOcc_none_of_noOcc {l : List Slot}
    (h : occupiedCount l = 0) (k : List Nat) : lookupOcc l k = none := by
  induction l with
  | nil => rfl
  | cons s rest ih =>
    by_cases h1 : s.status = 1
    · exfalso
      simp [occupiedCount, List.countP_cons, h1] at h
    · have hrest : occupiedCount rest = 0 := by
        simpa [occupiedCount, List.countP_cons, h1] using h
      unfold lookupOcc
      rw [if_neg (fun hc => h1 hc.1)]
      exact ih hrest

theorem lookupOcc_some_spec : ∀ {l : List Slot} {k v : List Nat},
    lookupOcc l k = some v →
    ∃ j, j < l.length ∧ (l.getD j defSlot).status = 1 ∧
      k = (l.getD j defSlot).key ∧ v = (l.getD j defSlot).value
  | [], k, v => by intro h; cases h
  | s :: rest, k, v => by
    intro h
    unfold lookupOcc at h
    by_cases hc : s.status = 1 ∧ k = s.key
    · rw [if_pos hc] at h
      injection h with h
      refine ⟨0, by simp, ?_, ?_, ?_⟩
      · rw [List.getD_cons_zero]; exact hc.1
      · rw [List.getD_cons_zero]; exact hc.2
      · rw [List.getD_cons_zero]; exact h.symm
    · rw [if_neg hc] at h
      obtain ⟨j, hj, h1, h2, h3⟩ := lookupOcc_some_spec h
      refine ⟨j + 1, by simpa using Nat.succ_lt_succ hj, ?_, ?_, ?_⟩
      · rw [List.getD_cons_succ]; exact h1
      · rw [List.getD_cons_succ]; exact h2
      · rw [List.getD_cons_succ]; exact h3

theorem lookupOcc_eq_some_of : ∀ {l : List Slot} {k : List Nat} {j : Nat},
    j < l.length → (l.getD j defSlot).status = 1 →
    k = (l.getD j defSlot).key →
    (∀ i, i < l.length → i ≠ j → (l.getD i defSlot).status = 1 →
      (l.getD i defSlot).key ≠ (l.getD j defSlot).key) →
    lookupOcc l k = some ((l.getD j defSlot).value)
  | [], k, j => by intro hj; simp at hj
  | s :: rest, k, j => by
    intro hj hst hkey huniq
    unfold lookupOcc
    by_cases hc : s.status = 1 ∧ k = s.key
    · rw [if_pos hc]
      cases j with
      | zero => rw [List.getD_cons_zero]
      | succ j2 =>
        exfalso
        refine huniq 0 (by simp) (by simp)
          (by rw [List.getD_cons_zero]; exact hc.1) ?_
        rw [List.getD_cons_zero, ← hc.2]
        exact hkey
    · rw [if_neg hc]
      cases j with
      | zero =>
        exfalso
        apply hc
        rw [List.getD_cons_zero] at hst hkey
        exact ⟨hst, hkey⟩
      | succ j2 =>
        rw [List.getD_cons_succ] at hst hkey ⊢
        apply lookupOcc_eq_some_of (by simpa using hj) hst hkey
        intro i hi hne h1
        have := huniq (i + 1) (by simpa using Nat.succ_lt_succ hi)
          (by omega) (by rw [List.getD_cons_succ]; exact h1)
        rw [List.getD_cons_succ, List.getD_cons_succ] at this
        exact this

theorem lookupOcc_eq_mapGet {ks vs n : Nat} {slots : List Slot}
    (h : TableOk ks vs n slots) (k : List Nat) :
    lookupOcc slots k = mapGet slots n k := by
  cases hm : mapGet slots n k with
  | some v =>
    obtain ⟨j, hj, hst, hkey, hv⟩ := mapGet_some_spec hm
    have hjlen : j < slots.length := by rw [h.len]; exact hj
    rw [lookupOcc_eq_some_of hjlen hst hkey ?_, hv]
    intro i hi hne h1
    exact h.uniq i j (by rw [← h.len]; exact hi) hj hne h1 hst
  | none =>
    cases hl : lookupOcc slots k with
    | none => rfl
    | some v =>
      obtain ⟨j, hj, hst, hkey, _⟩ := lookupOcc_some_spec hl
      exact absurd ⟨hst, hkey⟩
        (no_hit_of_mapGet_none h hm j (by rw [← h.len]; exact hj))

/-! ## The fresh table created by `Open` and `resize` -/

theorem tableOk_replicate {ks vs n : Nat} (hdvd : n = 0 ∨ n ∣ u32Mod)
    (hlt : n < u32Mod) :
    TableOk ks vs n (List.replicate n (emptySlot ks vs)) := by
  refine ⟨List.length_replicate n _, hdvd, hlt, ?_, ?_, ?_, ?_, ?_⟩
  · intro s hs; rw [List.eq_of_mem_replicate hs]; simp [emptySlot]
  · intro s hs; rw [List.eq_of_mem_replicate hs]; simp [emptySlot]
  · intro s hs; rw [List.eq_of_mem_replicate hs]; exact Or.inl rfl
  · intro i j hi hj hne hsti hstj
    rw [getD_replicate n i _ defSlot hi] at hsti
    simp [emptySlot] at hsti
  · intro j hj hstj
    rw [getD_replicate n j _ defSlot hj] at hstj
    simp [emptySlot] at hstj

theorem mapGet_replicate (ks vs n : Nat) (k : List Nat) :
    mapGet (List.replicate n (emptySlot ks vs)) n k = none := by
  apply mapGet_none_of_no_hit
  intro j hj hcon
  rw [getD_replicate n j _ defSlot hj] at hcon
  simp [emptySlot] at hcon

/-! ## The rehash loop of `resize` -/

theorem rehashOne_fields {tmp tmp2 : FileData} {n2 : Nat}
    {key value : List Nat} (h : rehashOne tmp n2 key value = some tmp2) :
    tmp2.magic = tmp.magic ∧ tmp2.fversion = tmp.fversion ∧
    tmp2.hNumSlots = tmp.hNumSlots ∧ tmp2.hSlotSize = tmp.hSlotSize ∧
    tmp2.hKeySize = tmp.hKeySize ∧ tmp2.hValueSize = tmp.hValueSize := by
  unfold rehashOne at h
  cases hp : probeEmpty tmp.slots n2 (hashKey key % n2) 0 n2 with
  | none => rw [hp] at h; cases h
  | some c =>
    rw [hp] at h
    injection h with h
    rw [← h]
    exact ⟨rfl, rfl, rfl, rfl, rfl, rfl⟩

theorem rehashOne_ok {ks vs n2 : Nat} {tmp tmp2 : FileData}
    {key value : List Nat} (h : TableOk ks vs n2 tmp.slots) (hn : 0 < n2)
    (hfresh : mapGet tmp.slots n2 key = none)
    (hkl : key.length = ks) (hvl : value.length = vs)
    (hr : rehashOne tmp n2 key value = some tmp2) :
    TableOk ks vs n2 tmp2.slots ∧
    (∀ k2, mapGet tmp2.slots n2 k2 =
      if k2 = key then some value else mapGet tmp.slots n2 k2) ∧
    occupiedCount tmp2.slots = occupiedCount tmp.slots + 1 ∧
    tmp2.hUsedSlots = (tmp.hUsedSlots + 1) % u32Mod := by
  have hnohit := no_hit_of_mapGet_none h hfresh
  unfold rehashOne at hr
  rw [@probeEmpty_eq_probe _ _ key _ hn hnohit n2 0] at hr
  cases hp : probe tmp.slots n2 key (hashKey key % n2) 0 n2 with
  | exhausted => rw [hp] at hr; cases hr
  | hit c => rw [hp] at hr; cases hr
  | empty c =>
    rw [hp] at hr
    injection hr with hr
    obtain ⟨ht, hm, hc, _, _⟩ := insert_ok h hkl hvl hp
    rw [← hr]
    exact ⟨ht, hm, hc, rfl⟩

theorem two_mul_le_of_dvd {d M : Nat} (hM : 0 < M) (hdvd : d ∣ M)
    (hlt : d < M) : 2 * d ≤ M := by
  obtain ⟨k, hk⟩ := hdvd
  rcases k with _ | _ | k2
  · omega
  · omega
  · have h2 : d * (k2 + 1 + 1) = d * k2 + 2 * d := by ring
    omega

theorem rehashList_ok {ks vs n n2 : Nat} {oldAll : List Slot}
    (hold : TableOk ks vs n oldAll) (hn2 : 0 < n2) :
    ∀ (rest pre : List Slot) (tmp tmp2 : FileData),
      oldAll = pre ++ rest →
      TableOk ks vs n2 tmp.slots →
      tmp.hUsedSlots = occupiedCount tmp.slots →
      (∀ k2, mapGet tmp.slots n2 k2 = lookupOcc pre k2) →
      rehashList n2 (occupiedCount oldAll) rest (occupiedCount pre) tmp =
        some tmp2 →
      TableOk ks vs n2 tmp2.slots ∧
      tmp2.hUsedSlots = occupiedCount tmp2.slots ∧
      (∀ k2, mapGet tmp2.slots n2 k2 = lookupOcc oldAll k2) ∧
      occupiedCount tmp2.slots + occupiedCount pre =
        occupiedCount tmp.slots + occupiedCount oldAll
  | [], pre, tmp, tmp2 => by
    intro heq htab hused hmap hr
    unfold rehashList at hr
    injection hr with hr
    have hpre : oldAll = pre := by simpa using heq
    subst hpre
    rw [← hr]
    exact ⟨htab, hused, hmap, rfl⟩
  | s :: rest, pre, tmp, tmp2 => by
    intro heq htab hused hmap hr
    unfold rehashList at hr
    by_cases hu : occupiedCount pre < occupiedCount oldAll
    · rw [if_pos hu] at hr
      by_cases hs : s.status = 1
      · rw [if_pos hs] at hr
        cases hro : rehashOne tmp n2 s.key s.value with
        | none =>
          rw [hro] at hr
          exact Option.noConfusion hr
        | some tmp1 =>
          rw [hro] at hr
          have hr2 : rehashList n2 (occupiedCount oldAll) rest
              (occupiedCount pre + 1) tmp1 = some tmp2 := hr
          have hmem : s ∈ oldAll := by
            rw [heq]; exact List.mem_append_right pre (List.mem_cons_self s rest)
          have hkl : s.key.length = ks := hold.keys s hmem
          have hvl : s.value.length = vs := hold.vals s hmem
          have hfresh2 : lookupOcc pre s.key = none := by
            cases hl : lookupOcc pre s.key with
            | none => rfl
            | some w =>
              exfalso
              obtain ⟨i, hi, hsti, hkeyi, _⟩ := lookupOcc_some_spec hl
              have hilen : i < oldAll.length := by
                rw [heq, List.length_append]; omega
              have hgi : oldAll.getD i defSlot = pre.getD i defSlot := by
                rw [heq, List.getD_append _ _ _ _ hi]
              have hglen : oldAll.getD pre.length defSlot = s := by
                rw [heq, List.getD_append_right _ _ _ _ (le_refl pre.length)]
                simp [List.getD_cons_zero]
              have hslen : pre.length < oldAll.length := by
                rw [heq, List.length_append]; simp
              have hne : i ≠ pre.length := by omega
              apply hold.uniq i pre.length
                (by rw [← hold.len]; exact hilen)
                (by rw [← hold.len]; exact hslen) hne
                (by rw [hgi]; exact hsti)
                (by rw [hglen]; exact hs)
              rw [hgi, hglen, ← hkeyi]
          have hfresh : mapGet tmp.slots n2 s.key = none := by
            rw [hmap]; exact hfresh2
          obtain ⟨htab1, hmap1, hcnt1, hused1⟩ :=
            rehashOne_ok htab hn2 hfresh hkl hvl hro
          have hocc_le : occupiedCount tmp.slots ≤ tmp.slots.length :=
            List.countP_le_length _
          have h2n : 2 * n2 ≤ u32Mod := by
            rcases htab.dvdOr with h0 | h0
            · omega
            · exact two_mul_le_of_dvd u32Mod_pos h0 htab.ltM
          have husedeq1 : tmp1.hUsedSlots = occupiedCount tmp1.slots := by
            rw [hused1, hused, hcnt1, Nat.mod_eq_of_lt]
            rw [htab.len] at hocc_le
            have hMval : u32Mod = 4294967296 := rfl
            omega
          have hmap1' : ∀ k2, mapGet tmp1.slots n2 k2 =
              lookupOcc (pre ++ [s]) k2 := by
            intro k2
            rw [hmap1 k2, lookupOcc_append]
            by_cases hk2 : k2 = s.key
            · rw [if_pos hk2, hk2, hfresh2]
              simp [lookupOcc, hs]
            · rw [if_neg hk2, hmap k2]
              cases hl2 : lookupOcc pre k2 with
              | some w => rfl
              | none =>
                show (none : Option (List Nat)) =
                  if s.status = 1 ∧ k2 = s.key then some s.value else none
                rw [if_neg (fun hc => hk2 hc.2)]
          have hocc_pre1 : occupiedCount (pre ++ [s]) =
              occupiedCount pre + 1 := by
            simp [occupiedCount, List.countP_append, List.countP_cons, hs]
          have heq1 : oldAll = (pre ++ [s]) ++ rest := by
            rw [heq, List.append_assoc]; rfl
          have hr1 : rehashList n2 (occupiedCount oldAll) rest
              (occupiedCount (pre ++ [s])) tmp1 = some tmp2 := by
            rw [hocc_pre1]; exact hr2
          obtain ⟨htabf, husedf, hmapf, hcntf⟩ :=
            rehashList_ok hold hn2 rest (pre ++ [s]) tmp1 tmp2 heq1 htab1
              husedeq1 hmap1' hr1
          refine ⟨htabf, husedf, hmapf, ?_⟩
          rw [hocc_pre1] at hcntf
          omega
      · rw [if_neg hs] at hr
        have hocc_pre1 : occupiedCount (pre ++ [s]) = occupiedCount pre := by
          simp [occupiedCount, List.countP_append, List.countP_cons, hs]
        have hmap1' : ∀ k2, mapGet tmp.slots n2 k2 =
            lookupOcc (pre ++ [s]) k2 := by
          intro k2
          rw [hmap k2, lookupOcc_append]
          cases hl2 : lookupOcc pre k2 with
          | some w => rfl
          | none =>
            show (none : Option (List Nat)) =
              if s.status = 1 ∧ k2 = s.key then some s.value else none
            rw [if_neg (fun hc => hs hc.1)]
        have heq1 : oldAll = (pre ++ [s]) ++ rest := by
          rw [heq, List.append_assoc]; rfl
        have hr1 : rehashList n2 (occupiedCount oldAll) rest
            (occupiedCount (pre ++ [s])) tmp = some tmp2 := by
          rw [hocc_pre1]; exact hr
        obtain ⟨htabf, husedf, hmapf, hcntf⟩ :=
          rehashList_ok hold hn2 rest (pre ++ [s]) tmp tmp2 heq1 htab
            hused hmap1' hr1
        refine ⟨htabf, husedf, hmapf, ?_⟩
        rw [hocc_pre1] at hcntf
        omega
    · rw [if_neg hu] at hr
      injection hr with hr
      have hocc : occupiedCount oldAll =
          occupiedCount pre + occupiedCount (s :: rest) := by
        rw [heq]
        simp [occupiedCount, List.countP_append]
      have hzero : occupiedCount (s :: rest) = 0 := by omega
      have hlook : ∀ k2, lookupOcc oldAll k2 = lookupOcc pre k2 := by
        intro k2
        rw [heq, lookupOcc_append]
        cases hl2 : lookupOcc pre k2 with
        | some w => rfl
        | none => exact lookupOcc_none_of_noOcc hzero k2
      rw [← hr]
      refine ⟨htab, hused, ?_, by omega⟩
      intro k2
      rw [hmap k2, hlook k2]

theorem rehashList_fields {n2 target : Nat} :
    ∀ (rest : List Slot) (u : Nat) (tmp tmp2 : FileData),
      rehashList n2 target rest u tmp = some tmp2 →
      tmp2.magic = tmp.magic ∧ tmp2.fversion = tmp.fversion ∧
      tmp2.hNumSlots = tmp.hNumSlots ∧ tmp2.hSlotSize = tmp.hSlotSize ∧
      tmp2.hKeySize = tmp.hKeySize ∧ tmp2.hValueSize = tmp.hValueSize
  | [], u, tmp, tmp2 => by
    intro h
    unfold rehashList at h
    injection h with h
    rw [← h]
    exact ⟨rfl, rfl, rfl, rfl, rfl, rfl⟩
  | s :: rest, u, tmp, tmp2 => by
    intro h
    unfold rehashList at h
    by_cases hu : u < target
    · rw [if_pos hu] at h
      by_cases hs : s.status = 1
      · rw [if_pos hs] at h
        cases hro : rehashOne tmp n2 s.key s.value with
        | none =>
          rw [hro] at h
          exact Option.noConfusion h
        | some tmp1 =>
          rw [hro] at h
          have h2 : rehashList n2 target rest (u + 1) tmp1 = some tmp2 := h
          obtain ⟨a1, a2, a3, a4, a5, a6⟩ :=
            rehashList_fields rest (u + 1) tmp1 tmp2 h2
          obtain ⟨b1, b2, b3, b4, b5, b6⟩ := rehashOne_fields hro
          exact ⟨a1.trans b1, a2.trans b2, a3.trans b3, a4.trans b4,
            a5.trans b5, a6.trans b6⟩
      · rw [if_neg hs] at h
        exact rehashList_fields rest u tmp tmp2 h
    · rw [if_neg hu] at h
      injection h with h
      rw [← h]
      exact ⟨rfl, rfl, rfl, rfl, rfl, rfl⟩

theorem rehashList_zero {target : Nat} :
    ∀ (rest : List Slot) (u : Nat) (tmp tmp2 : FileData),
      rehashList 0 target rest u tmp = some tmp2 →
      tmp2 = tmp ∧ (u < target → occupiedCount rest = 0)
  | [], u, tmp, tmp2 => by
    intro h
    unfold rehashList at h
    injection h with h
    exact ⟨h.symm, fun _ => rfl⟩
  | s :: rest, u, tmp, tmp2 => by
    intro h
    unfold rehashList at h
    by_cases hu : u < target
    · rw [if_pos hu] at h
      by_cases hs : s.status = 1
      · rw [if_pos hs] at h
        have hnone : rehashOne tmp 0 s.key s.value = none := rfl
        rw [hnone] at h
        exact Option.noConfusion h
      · rw [if_neg hs] at h
        obtain ⟨h1, h2⟩ := rehashList_zero rest u tmp tmp2 h
        refine ⟨h1, fun hu2 => ?_⟩
        have h3 := h2 hu2
        simpa [occupiedCount, List.countP_cons, hs] using h3
    · rw [if_neg hu] at h
      injection h with h
      exact ⟨h.symm, fun hu2 => absurd hu2 hu⟩

/-! ## `resize` is correct -/

theorem mapGet_zero (slots : List Slot) (key : List Nat) :
    mapGet slots 0 key = none := rfl

theorem Get_eq (ph : PersistentHash) (key : List Nat) :
    Get ph key =
      if key.length = ph.keySize then
        mapGet ph.data.slots ph.numSlots key
      else none := rfl

theorem resize_def (ph : PersistentHash) :
    resize ph =
      match rehashList ((ph.numSlots * 2) % u32Mod) ph.usedSlots
          ph.data.slots 0 (resizeTmp ph ((ph.numSlots * 2) % u32Mod)) with
      | some tmp2 =>
          .ok { ph with data := tmp2,
                        numSlots := (ph.numSlots * 2) % u32Mod,
                        usedSlots := tmp2.hUsedSlots }
      | none => .error .resizeFailed := rfl

theorem resize_ok {ph ph2 : PersistentHash} (h : Inv ph)
    (hr : resize ph = .ok ph2) :
    Inv ph2 ∧ ph2.keySize = ph.keySize ∧ ph2.valueSize = ph.valueSize ∧
    ph2.slotSize = ph.slotSize ∧ (∀ key, Get ph2 key = Get ph key) ∧
    (0 < ph.usedSlots → ph2.numSlots = 2 * ph.numSlots) := by
  rw [resize_def] at hr
  cases hrl : rehashList ((ph.numSlots * 2) % u32Mod) ph.usedSlots
      ph.data.slots 0 (resizeTmp ph ((ph.numSlots * 2) % u32Mod)) with
  | none =>
    rw [hrl] at hr
    exact Except.noConfusion hr
  | some tmp2' =>
    rw [hrl] at hr
    injection hr with hr
    subst hr
    by_cases hn0 : ph.numSlots = 0
    · -- degenerate table of capacity 0: nothing is stored
      have hslots : ph.data.slots = [] := by
        have := h.table.len
        rw [hn0] at this
        exact List.length_eq_zero.1 this
      have hused0 : ph.usedSlots = 0 := by
        rw [h.usedEq, hslots]; rfl
      have hn'0 : (ph.numSlots * 2) % u32Mod = 0 := by
        rw [hn0]; rfl
      rw [hslots] at hrl
      unfold rehashList at hrl
      injection hrl with hrl
      subst hrl
      refine ⟨⟨?_, h.coherent, h.sizesLt, ?_, rfl, rfl, rfl, rfl, rfl, rfl⟩,
        rfl, rfl, rfl, ?_, ?_⟩
      · exact tableOk_replicate (Or.inl hn'0) (by rw [hn'0]; exact u32Mod_pos)
      · exact (occupiedCount_replicate _ _ _).symm
      · intro key
        rw [Get_eq, Get_eq]
        by_cases hkl : key.length = ph.keySize
        · rw [if_pos hkl, if_pos hkl]
          rw [hn'0, hslots, hn0]
          rfl
        · rw [if_neg hkl, if_neg hkl]
      · intro hpos
        exact absurd (hused0 ▸ hpos) (lt_irrefl 0)
    · have hn : 0 < ph.numSlots := Nat.pos_of_ne_zero hn0
      have hdvd : ph.numSlots ∣ u32Mod := by
        rcases h.table.dvdOr with h0 | h0
        · omega
        · exact h0
      have h2n : 2 * ph.numSlots ≤ u32Mod :=
        two_mul_le_of_dvd u32Mod_pos hdvd h.table.ltM
      by_cases h2M : ph.numSlots * 2 = u32Mod
      · -- capacity wraps to 0: only possible with an empty table
        have hn'0 : (ph.numSlots * 2) % u32Mod = 0 := by
          rw [h2M, Nat.mod_self]
        rw [hn'0] at hrl
        obtain ⟨heqtmp, hocc0⟩ :=
          rehashList_zero ph.data.slots 0 (resizeTmp ph 0) tmp2' hrl
        have hused0 : ph.usedSlots = 0 := by
          by_contra hne
          have hpos : 0 < ph.usedSlots := Nat.pos_of_ne_zero hne
          have h0 := hocc0 hpos
          rw [h.usedEq, h0] at hpos
          exact lt_irrefl 0 hpos
        have hocc_slots : occupiedCount ph.data.slots = 0 := by
          rw [← h.usedEq]; exact hused0
        subst heqtmp
        have hrget : ∀ key, mapGet ph.data.slots ph.numSlots key = none := by
          intro key
          apply mapGet_none_of_no_hit
          intro j hj hcon
          have := occupiedCount_pos ph.data.slots j
            (by rw [h.table.len]; exact hj) hcon.1
          rw [hocc_slots] at this
          exact lt_irrefl 0 this
        refine ⟨⟨?_, h.coherent, h.sizesLt, ?_, rfl, ?_, rfl, rfl, rfl, rfl⟩,
          rfl, rfl, rfl, ?_, ?_⟩
        · show TableOk ph.keySize ph.valueSize ((ph.numSlots * 2) % u32Mod)
            (resizeTmp ph 0).slots
          rw [hn'0]
          exact tableOk_replicate (Or.inl rfl) u32Mod_pos
        · exact (occupiedCount_replicate _ _ _).symm
        · show (0 : Nat) = (ph.numSlots * 2) % u32Mod
          rw [hn'0]
        · intro key
          rw [Get_eq, Get_eq]
          by_cases hkl : key.length = ph.keySize
          · rw [if_pos hkl, if_pos hkl, hrget key, hn'0]
            exact mapGet_zero _ _
          · rw [if_neg hkl, if_neg hkl]
        · intro hpos
          exact absurd (hused0 ▸ hpos) (lt_irrefl 0)
      · -- the regular case: capacity exactly doubles
        have h2lt : ph.numSlots * 2 < u32Mod := by omega
        have hn' : (ph.numSlots * 2) % u32Mod = ph.numSlots * 2 :=
          Nat.mod_eq_of_lt h2lt
        have hn'pos : 0 < (ph.numSlots * 2) % u32Mod := by
          rw [hn']; omega
        have hdvd' : (ph.numSlots * 2) % u32Mod ∣ u32Mod := by
          rw [hn']
          have hM2 : u32Mod = 2 ^ 32 := by norm_num [u32Mod]
          rw [hM2]
          rw [hM2] at hdvd h2lt
          obtain ⟨a, ha, hna⟩ := (Nat.dvd_prime_pow Nat.prime_two).1 hdvd
          rw [hna] at h2lt ⊢
          rw [show (2:Nat) ^ a * 2 = 2 ^ (a + 1) from by ring] at h2lt ⊢
          apply pow_dvd_pow
          by_contra hcon
          push_neg at hcon
          have : (2:Nat) ^ 32 < 2 ^ (a + 1) :=
            Nat.pow_lt_pow_right (by norm_num) (by omega)
          omega
        have htab0 : TableOk ph.keySize ph.valueSize
            ((ph.numSlots * 2) % u32Mod)
            (resizeTmp ph ((ph.numSlots * 2) % u32Mod)).slots :=
          tableOk_replicate (Or.inr hdvd') (Nat.mod_lt _ u32Mod_pos)
        rw [h.usedEq] at hrl
        obtain ⟨htabf, husedf, hmapf, _⟩ :=
          rehashList_ok h.table hn'pos ph.data.slots []
            (resizeTmp ph ((ph.numSlots * 2) % u32Mod)) tmp2' rfl htab0
            (occupiedCount_replicate _ _ _).symm
            (fun k2 => mapGet_replicate _ _ _ k2) hrl
        obtain ⟨f1, f2, f3, f4, f5, f6⟩ :=
          rehashList_fields ph.data.slots 0 _ tmp2' hrl
        refine ⟨⟨htabf, h.coherent, h.sizesLt, husedf, f1, f3, rfl, f4,
          f5, f6⟩, rfl, rfl, rfl, ?_, ?_⟩
        · intro key
          rw [Get_eq, Get_eq]
          by_cases hkl : key.length = ph.keySize
          · rw [if_pos hkl, if_pos hkl]
            show mapGet tmp2'.slots ((ph.numSlots * 2) % u32Mod) key =
              mapGet ph.data.slots ph.numSlots key
            rw [hmapf key]
            exact lookupOcc_eq_mapGet h.table key
          · rw [if_neg hkl, if_neg hkl]
        · intro _
          show (ph.numSlots * 2) % u32Mod = 2 * ph.numSlots
          rw [hn']
          ring

/-! ## `putWithRetry` and `Put` are correct -/

theorem putWithRetry_eq (ph : PersistentHash) (key value : List Nat)
    (rc : Nat) :
    putWithRetry ph key value rc =
      if rc > 3 then (ph, some .retryExhausted)
      else
        match probe ph.data.slots ph.numSlots key (hashKey key % ph.numSlots)
            0 ph.numSlots with
        | .empty c =>
            if loadFactorExceeded ph.usedSlots ph.numSlots then
              match resize ph with
              | .ok ph2 => putWithRetry ph2 key value (rc + 1)
              | .error e => (ph, some e)
            else
              ({ ph with
                  data := { ph.data with
                              slots := ph.data.slots.set c ⟨1, key, value⟩,
                              hUsedSlots := (ph.usedSlots + 1) % u32Mod },
                  usedSlots := (ph.usedSlots + 1) % u32Mod }, none)
        | .hit c =>
            ({ ph with
                data := { ph.data with
                            slots := ph.data.slots.set c
                              ⟨(ph.data.slots.getD c defSlot).status,
                               (ph.data.slots.getD c defSlot).key, value⟩ } },
             none)
        | .exhausted => (ph, some .capacityError) := by
  rw [putWithRetry]

theorem putWithRetry_step_retry {ph : PersistentHash} {key value : List Nat}
    {rc : Nat} (h3 : rc > 3) :
    putWithRetry ph key value rc = (ph, some .retryExhausted) := by
  rw [putWithRetry_eq, if_pos h3]

theorem putWithRetry_step_exhausted {ph : PersistentHash}
    {key value : List Nat} {rc : Nat} (h3 : ¬ rc > 3)
    (hp : probe ph.data.slots ph.numSlots key (hashKey key % ph.numSlots) 0
      ph.numSlots = .exhausted) :
    putWithRetry ph key value rc = (ph, some .capacityError) := by
  rw [putWithRetry_eq, if_neg h3, hp]

theorem putWithRetry_step_hit {ph : PersistentHash} {key value : List Nat}
    {rc c : Nat} (h3 : ¬ rc > 3)
    (hp : probe ph.data.slots ph.numSlots key (hashKey key % ph.numSlots) 0
      ph.numSlots = .hit c) :
    putWithRetry ph key value rc =
      ({ ph with
          data := { ph.data with
                      slots := ph.data.slots.set c
                        ⟨(ph.data.slots.getD c defSlot).status,
                         (ph.data.slots.getD c defSlot).key, value⟩ } },
       none) := by
  rw [putWithRetry_eq, if_neg h3, hp]

theorem putWithRetry_step_resize_ok {ph ph2 : PersistentHash}
    {key value : List Nat} {rc c : Nat} (h3 : ¬ rc > 3)
    (hp : probe ph.data.slots ph.numSlots key (hashKey key % ph.numSlots) 0
      ph.numSlots = .empty c)
    (hlf : loadFactorExceeded ph.usedSlots ph.numSlots = true)
    (hres : resize ph = .ok ph2) :
    putWithRetry ph key value rc = putWithRetry ph2 key value (rc + 1) := by
  rw [putWithRetry_eq, if_neg h3, hp]
  show (if loadFactorExceeded ph.usedSlots ph.numSlots then
      match resize ph with
      | .ok ph3 => putWithRetry ph3 key value (rc + 1)
      | .error e => (ph, some e)
    else _) = _
  rw [if_pos hlf, hres]

theorem putWithRetry_step_resize_err {ph : PersistentHash}
    {key value : List Nat} {rc c : Nat} {e : PhError} (h3 : ¬ rc > 3)
    (hp : probe ph.data.slots ph.numSlots key (hashKey key % ph.numSlots) 0
      ph.numSlots = .empty c)
    (hlf : loadFactorExceeded ph.usedSlots ph.numSlots = true)
    (hres : resize ph = .error e) :
    putWithRetry ph key value rc = (ph, some e) := by
  rw [putWithRetry_eq, if_neg h3, hp]
  show (if loadFactorExceeded ph.usedSlots ph.numSlots then
      match resize ph with
      | .ok ph3 => putWithRetry ph3 key value (rc + 1)
      | .error e2 => (ph, some e2)
    else _) = _
  rw [if_pos hlf, hres]

theorem putWithRetry_step_insert {ph : PersistentHash}
    {key value : List Nat} {rc c : Nat} (h3 : ¬ rc > 3)
    (hp : probe ph.data.slots ph.numSlots key (hashKey key % ph.numSlots) 0
      ph.numSlots = .empty c)
    (hlf : ¬ loadFactorExceeded ph.usedSlots ph.numSlots = true) :
    putWithRetry ph key value rc =
      ({ ph with
          data := { ph.data with
                      slots := ph.data.slots.set c ⟨1, key, value⟩,
                      hUsedSlots := (ph.usedSlots + 1) % u32Mod },
          usedSlots := (ph.usedSlots + 1) % u32Mod }, none) := by
  rw [putWithRetry_eq, if_neg h3, hp]
  show (if loadFactorExceeded ph.usedSlots ph.numSlots then
      match resize ph with
      | .ok ph3 => putWithRetry ph3 key value (rc + 1)
      | .error e2 => (ph, some e2)
    else _) = _
  rw [if_neg hlf]

theorem putWithRetry_ok {ph : PersistentHash} {key value : List Nat}
    (h : Inv ph) (hkl : key.length = ph.keySize)
    (hvl : value.length = ph.valueSize) (rc : Nat) :
    Inv (putWithRetry ph key value rc).1 ∧
    ((putWithRetry ph key value rc).2 = none →
      ∀ k2, Get (putWithRetry ph key value rc).1 k2 =
        if k2 = key then some value else Get ph k2) ∧
    ((putWithRetry ph key value rc).2 ≠ none →
      ∀ k2, Get (putWithRetry ph key value rc).1 k2 = Get ph k2) := by
  by_cases hrc : rc > 3
  · rw [putWithRetry_step_retry hrc]
    exact ⟨h, fun hcon => Option.noConfusion hcon, fun _ k2 => rfl⟩
  · cases hp : probe ph.data.slots ph.numSlots key
        (hashKey key % ph.numSlots) 0 ph.numSlots with
    | exhausted =>
      rw [putWithRetry_step_exhausted hrc hp]
      exact ⟨h, fun hcon => Option.noConfusion hcon, fun _ k2 => rfl⟩
    | hit c =>
      rw [putWithRetry_step_hit hrc hp]
      obtain ⟨htab2, hupd, hocc, hcn, hst1, hkeyc⟩ := update_ok h.table hvl hp
      refine ⟨⟨htab2, h.coherent, h.sizesLt, ?_, h.hMagic, h.hNum,
        h.hUsed, h.hSlot, h.hKey, h.hVal⟩, ?_, ?_⟩
      · show ph.usedSlots = occupiedCount (ph.data.slots.set c _)
        rw [hocc]
        exact h.usedEq
      · intro _ k2
        by_cases hk2 : k2 = key
        · rw [if_pos hk2, Get_eq]
          have hk2l : k2.length = ph.keySize := by rw [hk2]; exact hkl
          rw [if_pos hk2l]
          show mapGet (ph.data.slots.set c _) ph.numSlots k2 = some value
          rw [hupd k2, if_pos hk2]
        · rw [if_neg hk2, Get_eq, Get_eq]
          by_cases hk2l : k2.length = ph.keySize
          · rw [if_pos hk2l, if_pos hk2l]
            show mapGet (ph.data.slots.set c _) ph.numSlots k2 =
              mapGet ph.data.slots ph.numSlots k2
            rw [hupd k2, if_neg hk2]
          · rw [if_neg hk2l, if_neg hk2l]
      · intro hcon
        exact absurd rfl hcon
    | empty c =>
      by_cases hlf : loadFactorExceeded ph.usedSlots ph.numSlots = true
      · cases hres : resize ph with
        | error e =>
          rw [putWithRetry_step_resize_err hrc hp hlf hres]
          exact ⟨h, fun hcon => Option.noConfusion hcon, fun _ k2 => rfl⟩
        | ok ph2 =>
          rw [putWithRetry_step_resize_ok hrc hp hlf hres]
          obtain ⟨h2, hks, hvs, _, hget, _⟩ := resize_ok h hres
          have hkl2 : key.length = ph2.keySize := by rw [hks]; exact hkl
          have hvl2 : value.length = ph2.valueSize := by rw [hvs]; exact hvl
          obtain ⟨ih1, ih2, ih3⟩ := putWithRetry_ok h2 hkl2 hvl2 (rc + 1)
          refine ⟨ih1, ?_, ?_⟩
          · intro hnone k2
            rw [ih2 hnone k2]
            by_cases hk2 : k2 = key
            · rw [if_pos hk2, if_pos hk2]
            · rw [if_neg hk2, if_neg hk2, hget k2]
          · intro hsome k2
            rw [ih3 hsome k2, hget k2]
      · rw [putWithRetry_step_insert hrc hp hlf]
        obtain ⟨htab2, hupd, hocc, hcn, hst0⟩ := insert_ok h.table hkl hvl hp
        have hn : 0 < ph.numSlots := by omega
        have hdvd : ph.numSlots ∣ u32Mod := by
          rcases h.table.dvdOr with h0 | h0
          · omega
          · exact h0
        have h2n : 2 * ph.numSlots ≤ u32Mod :=
          two_mul_le_of_dvd u32Mod_pos hdvd h.table.ltM
        have hule : ph.usedSlots ≤ ph.numSlots := by
          rw [h.usedEq, ← h.table.len]
          exact List.countP_le_length _
        have hMv : u32Mod = 4294967296 := rfl
        have humod : (ph.usedSlots + 1) % u32Mod = ph.usedSlots + 1 :=
          Nat.mod_eq_of_lt (by omega)
        refine ⟨⟨htab2, h.coherent, h.sizesLt, ?_, h.hMagic, h.hNum,
          rfl, h.hSlot, h.hKey, h.hVal⟩, ?_, ?_⟩
        · show (ph.usedSlots + 1) % u32Mod =
            occupiedCount (ph.data.slots.set c ⟨1, key, value⟩)
          rw [humod, hocc, ← h.usedEq]
        · intro _ k2
          by_cases hk2 : k2 = key
          · rw [if_pos hk2, Get_eq]
            have hk2l : k2.length = ph.keySize := by rw [hk2]; exact hkl
            rw [if_pos hk2l]
            show mapGet (ph.data.slots.set c ⟨1, key, value⟩) ph.numSlots k2 =
              some value
            rw [hupd k2, if_pos hk2]
          · rw [if_neg hk2, Get_eq, Get_eq]
            by_cases hk2l : k2.length = ph.keySize
            · rw [if_pos hk2l, if_pos hk2l]
              show mapGet (ph.data.slots.set c ⟨1, key, value⟩) ph.numSlots
                k2 = mapGet ph.data.slots ph.numSlots k2
              rw [hupd k2, if_neg hk2]
            · rw [if_neg hk2l, if_neg hk2l]
        · intro hcon
          exact absurd rfl hcon
termination_by 4 - rc
decreasing_by omega

theorem Put_ok {ph ph2 : PersistentHash} {key value : List Nat}
    {e : Option PhError} (h : Inv ph) (hput : Put ph key value = (ph2, e)) :
    Inv ph2 ∧
    (e = none →
      (key.length = ph.keySize ∧ value.length = ph.valueSize) ∧
      ∀ k2, Get ph2 k2 = if k2 = key then some value else Get ph k2) ∧
    (e ≠ none → ∀ k2, Get ph2 k2 = Get ph k2) := by
  unfold Put at hput
  by_cases hv : key.length = ph.keySize ∧ value.length = ph.valueSize
  · rw [if_pos hv] at hput
    obtain ⟨i1, i2, i3⟩ := putWithRetry_ok h hv.1 hv.2 0
    rw [hput] at i1 i2 i3
    exact ⟨i1, fun he => ⟨hv, i2 he⟩, i3⟩
  · rw [if_neg hv] at hput
    injection hput with h1 h2
    subst h1
    subst h2
    refine ⟨h, ?_, fun _ k2 => rfl⟩
    intro hcon
    exact absurd hcon (by simp)

theorem putWithRetry_insert_load {ph : PersistentHash}
    {key value : List Nat} (h : Inv ph) (hkl : key.length = ph.keySize)
    (hvl : value.length = ph.valueSize) (hnone : Get ph key = none)
    (rc : Nat) :
    (putWithRetry ph key value rc).2 = none →
    0 < (putWithRetry ph key value rc).1.usedSlots ∧
    loadFactorExceeded ((putWithRetry ph key value rc).1.usedSlots - 1)
      (putWithRetry ph key value rc).1.numSlots = false := by
  by_cases hrc : rc > 3
  · rw [putWithRetry_step_retry hrc]
    intro hcon
    exact Option.noConfusion hcon
  · cases hp : probe ph.data.slots ph.numSlots key
        (hashKey key % ph.numSlots) 0 ph.numSlots with
    | exhausted =>
      rw [putWithRetry_step_exhausted hrc hp]
      intro hcon
      exact Option.noConfusion hcon
    | hit c =>
      exfalso
      rw [Get_eq, if_pos hkl] at hnone
      unfold mapGet at hnone
      rw [hp] at hnone
      exact Option.noConfusion hnone
    | empty c =>
      by_cases hlf : loadFactorExceeded ph.usedSlots ph.numSlots = true
      · cases hres : resize ph with
        | error e =>
          rw [putWithRetry_step_resize_err hrc hp hlf hres]
          intro hcon
          exact Option.noConfusion hcon
        | ok ph2 =>
          rw [putWithRetry_step_resize_ok hrc hp hlf hres]
          obtain ⟨h2, hks, hvs, _, hget, _⟩ := resize_ok h hres
          have hkl2 : key.length = ph2.keySize := by rw [hks]; exact hkl
          have hvl2 : value.length = ph2.valueSize := by rw [hvs]; exact hvl
          have hnone2 : Get ph2 key = none := by rw [hget key]; exact hnone
          exact putWithRetry_insert_load h2 hkl2 hvl2 hnone2 (rc + 1)
      · rw [putWithRetry_step_insert hrc hp hlf]
        intro _
        obtain ⟨_, _, _, hcn, _⟩ := insert_ok h.table hkl hvl hp
        have hn : 0 < ph.numSlots := by omega
        have hdvd : ph.numSlots ∣ u32Mod := by
          rcases h.table.dvdOr with h0 | h0
          · omega
          · exact h0
        have h2n : 2 * ph.numSlots ≤ u32Mod :=
          two_mul_le_of_dvd u32Mod_pos hdvd h.table.ltM
        have hule : ph.usedSlots ≤ ph.numSlots := by
          rw [h.usedEq, ← h.table.len]
          exact List.countP_le_length _
        have hMv : u32Mod = 4294967296 := rfl
        have humod : (ph.usedSlots + 1) % u32Mod = ph.usedSlots + 1 :=
          Nat.mod_eq_of_lt (by omega)
        constructor
        · show 0 < (ph.usedSlots + 1) % u32Mod
          rw [humod]
          omega
        · show loadFactorExceeded ((ph.usedSlots + 1) % u32Mod - 1)
            ph.numSlots = false
          rw [humod, Nat.add_sub_cancel]
          cases h2 : loadFactorExceeded ph.usedSlots ph.numSlots
          · rfl
          · exact absurd h2 hlf
termination_by 4 - rc
decreasing_by omega

theorem putAll_ok :
    ∀ (ops : List (List Nat × List Nat)) (ph ph2 : PersistentHash),
      Inv ph → putAll ph ops = (ph2, none) →
      Inv ph2 ∧
      (∀ k v, lastVal ops k = some v → Get ph2 k = some v) ∧
      (∀ k, lastVal ops k = none → Get ph2 k = Get ph k)
  | [], ph, ph2 => by
    intro h hall
    unfold putAll at hall
    injection hall with h1 _
    subst h1
    refine ⟨h, ?_, ?_⟩
    · intro k v hk
      exact Option.noConfusion hk
    · intro k _
      rfl
  | (k0, v0) :: rest, ph, ph2 => by
    intro h hall
    unfold putAll at hall
    cases hput : Put ph k0 v0 with
    | mk ph1 e =>
      rw [hput] at hall
      cases e with
      | some e0 =>
        injection hall with _ h2
        exact Option.noConfusion h2
      | none =>
        have hall2 : putAll ph1 rest = (ph2, none) := hall
        obtain ⟨h1, hp2, _⟩ := Put_ok h hput
        have hupd := (hp2 rfl).2
        obtain ⟨h2, hlast, hnone⟩ := putAll_ok rest ph1 ph2 h1 hall2
        refine ⟨h2, ?_, ?_⟩
        · intro k v hk
          unfold lastVal at hk
          cases hlv : lastVal rest k with
          | some w =>
            rw [hlv] at hk
            injection hk with hk
            rw [← hk]
            exact hlast k w hlv
          | none =>
            rw [hlv] at hk
            by_cases hkk : k = k0
            · rw [if_pos hkk] at hk
              injection hk with hk
              rw [hnone k hlv, hupd k, if_pos hkk, hk]
            · rw [if_neg hkk] at hk
              exact Option.noConfusion hk
        · intro k hk
          unfold lastVal at hk
          cases hlv : lastVal rest k with
          | some w =>
            rw [hlv] at hk
            exact Option.noConfusion hk
          | none =>
            rw [hlv] at hk
            by_cases hkk : k = k0
            · rw [if_pos hkk] at hk
              exact Option.noConfusion hk
            · rw [hnone k hlv, hupd k, if_neg hkk]

/-! ## Reachable states satisfy the invariant -/

theorem Open_some (fd : FileData) (ks vs : Nat)
    (h : fd.magic = magicNumber) :
    Open (some fd) ks vs =
      .ok { data := fd, keySize := fd.hKeySize, valueSize := fd.hValueSize,
            slotSize := fd.hSlotSize, numSlots := fd.hNumSlots,
            usedSlots := fd.hUsedSlots } := by
  show (if fd.magic = magicNumber then
      Except.ok ({ data := fd, keySize := fd.hKeySize,
                   valueSize := fd.hValueSize, slotSize := fd.hSlotSize,
                   numSlots := fd.hNumSlots,
                   usedSlots := fd.hUsedSlots } : PersistentHash)
    else Except.error PhError.formatError) = _
  rw [if_pos h]

theorem openNew_inv {ks vs : Nat} (hsz : 1 + ks + vs < u32Mod) :
    Inv (openNew ks vs) := by
  refine ⟨?_, ?_, hsz, ?_, rfl, rfl, rfl, rfl, rfl, rfl⟩
  · show TableOk ks vs 1024 (List.replicate 1024 (emptySlot ks vs))
    exact tableOk_replicate
      (Or.inr ⟨4194304, by norm_num [u32Mod]⟩) (by norm_num [u32Mod])
  · show (1 + ks + vs) % u32Mod = 1 + ks + vs
    exact Nat.mod_eq_of_lt hsz
  · exact (occupiedCount_replicate _ _ _).symm

theorem reachable_inv {ph : PersistentHash} (h : Reachable ph) : Inv ph := by
  induction h with
  | openTable ks vs hsz => exact openNew_inv hsz
  | putStep ph0 ph2 key value e _ hput ih => exact (Put_ok ih hput).1
  | reopenStep ph0 ph2 ks vs _ hopen ih =>
    have hopen2 : Open (some ph0.data) ks vs = .ok ph2 := hopen
    rw [Open_some ph0.data ks vs ih.hMagic] at hopen2
    injection hopen2 with hopen2
    rw [← hopen2]
    rw [ih.hKey, ih.hVal, ih.hSlot, ih.hNum, ih.hUsed]
    exact ih
  | resizeStep ph0 ph2 _ hres ih => exact (resize_ok ih hres).1

theorem getD_of_len_le {α : Type} (l : List α) (c : Nat) (d : α)
    (h : l.length ≤ c) : l.getD c d = d := by
  simp [List.getD, List.getElem?_eq_none h]

/-! ## The example tables are the stated `Put` results -/

theorem inv_exT0 : Inv exT0 := openNew_inv (by norm_num [u32Mod])

theorem put_exT1 : Put exT0 [3] [4] = (exT1, none) := by
  unfold Put
  rw [if_pos ⟨rfl, rfl⟩]
  exact putWithRetry_step_insert (by omega) rfl (by decide)

theorem put_exT2 : Put exT0 [2] [5] = (exT2, none) := by
  unfold Put
  rw [if_pos ⟨rfl, rfl⟩]
  exact putWithRetry_step_insert (by omega) rfl (by decide)

theorem put_exT5 : Put exT0 [5] [7] = (exT5, none) := by
  unfold Put
  rw [if_pos ⟨rfl, rfl⟩]
  exact putWithRetry_step_insert (by omega) rfl (by decide)

theorem put_exT59 : Put exT5 [9] [3] = (exT59, none) := by
  unfold Put
  rw [if_pos ⟨rfl, rfl⟩]
  exact putWithRetry_step_insert (by omega) rfl (by decide)

theorem putAll_exT2 : putAll exT0 [([2], [5])] = (exT2, none) := by
  unfold putAll
  rw [put_exT2]
  rfl

/-! ## The claims -/

/-- Claim C1: for every key of length `keySize` and value of length
`valueSize`, a `Put(key, value)` that returns success followed by
`Get(key)` on the same table returns `(value, true)` (modelled as
`some value`).  The hypothesis `Inv ph` is the invariant every table
reachable through the API satisfies (`reachable_inv`). -/
theorem c1_put_get_roundtrip {ph ph2 : PersistentHash}
    {key value : List Nat} (h : Inv ph)
    (hput : Put ph key value = (ph2, none)) : Get ph2 key = some value := by
  have hres := ((Put_ok h hput).2.1 rfl).2 key
  rw [hres, if_pos rfl]

/-- Witness for C1 at a concrete table. -/
theorem c1_witness : Get exT1 [3] = some [4] :=
  c1_put_get_roundtrip inv_exT0 put_exT1

/-- Claim C2: every resize sets the new capacity to exactly
`numSlots * 2` and preserves all data.  First conjunct: a successful
`resize` of a well-formed non-empty table (every resize the load factor
forces happens with `usedSlots > 0`) exactly doubles the capacity and
leaves every key's `Get` result unchanged.  Second conjunct: a sequence
of successful `Put`s from a well-formed table — with however many
resizes they trigger internally — leaves every written key retrievable
by `Get` with its most recently written value. -/
theorem c2_resize_doubles_and_preserves :
    (∀ ph ph2 : PersistentHash, Inv ph → 0 < ph.usedSlots →
      resize ph = .ok ph2 →
      ph2.numSlots = 2 * ph.numSlots ∧ ∀ key, Get ph2 key = Get ph key) ∧
    (∀ (ops : List (List Nat × List Nat)) (ph ph2 : PersistentHash),
      Inv ph → putAll ph ops = (ph2, none) →
      ∀ k v, lastVal ops k = some v → Get ph2 k = some v) := by
  constructor
  · intro ph ph2 h hpos hres
    obtain ⟨_, _, _, _, hget, hdouble⟩ := resize_ok h hres
    exact ⟨hdouble hpos, hget⟩
  · intro ops ph ph2 h hall k v hlast
    exact (putAll_ok ops ph ph2 h hall).2.1 k v hlast

/-- Witness for C2: a concrete resize doubles 1024 to 2048 and keeps the
stored key readable, and a concrete `Put` sequence yields the most
recently written value. -/
theorem c2_witness :
    (((resize exT1).toOption.getD exT1).numSlots = 2 * exT1.numSlots ∧
      ∀ key, Get ((resize exT1).toOption.getD exT1) key = Get exT1 key) ∧
    Get exT2 [2] = some [5] := by
  constructor
  · exact c2_resize_doubles_and_preserves.1 _ _
      (Put_ok inv_exT0 put_exT1).1 (by decide) rfl
  · exact c2_resize_doubles_and_preserves.2 [([2], [5])] _ _
      inv_exT0 putAll_exT2 [2] [5] rfl

/-- Claim C3 counterexample.  The claim asserts the exact bound
`usedSlots / numSlots ≤ 0.7` after every successful `Put`, and that the
pre-insert check fires whenever `(usedSlots + 1) / numSlots` would
exceed 0.7.  The code's check, however, is the `float32` comparison
`float32(usedSlots+1)/float32(numSlots) > 0.7`, and the two diverge at
the capacity `numSlots = 2^26 = 67108864` (`= 1024 * 2^16`, a capacity
of the doubling-from-1024 form) with `usedSlots = 46976204`:
`float32(46976205)` rounds down to `46976204`, the quotient is exactly
the binary32 value of `0.7` (`11744051/2^24`), the strict comparison is
false (first conjunct), and the code inserts
(`putWithRetry_step_insert` applies in any such state whose probe finds
an empty slot) — although the exact ratio `46976205/2^26` exceeds
`7/10` (second conjunct).  So after that successful `Put`,
`usedSlots / numSlots > 0.7`: both halves of the claim fail. -/
theorem c3_counterexample :
    loadFactorExceeded 46976204 67108864 = false ∧
    7 * 67108864 < 10 * (46976204 + 1) ∧
    67108864 = 1024 * 2 ^ 16 := by
  refine ⟨by decide, by decide, by decide⟩

/-- Claim C3 as amended: `Put`'s pre-insert load check is the `float32`
comparison `float32(usedSlots+1)/float32(numSlots) > 0.7` (with `0.7`
the binary32 constant `11744051/2^24`), not the exact rational one; on
finding an empty slot the code resizes-then-retries instead of
inserting exactly when that comparison holds (third conjunct).
Consequently a successful `Put` of a key not previously retrievable
leaves a state whose own counts pass the same `float32` check (first
conjunct), and a successful `Put` of an already-stored key leaves
`usedSlots` and `numSlots` unchanged (second conjunct); the exact bound
`usedSlots/numSlots ≤ 0.7` of the original claim fails at capacities of
`2^26` slots and above (`c3_counterexample`). -/
theorem c3_load_factor_float32 :
    (∀ (ph ph2 : PersistentHash) (key value : List Nat),
      Inv ph → Get ph key = none → Put ph key value = (ph2, none) →
      0 < ph2.usedSlots ∧
      loadFactorExceeded (ph2.usedSlots - 1) ph2.numSlots = false) ∧
    (∀ (ph ph2 : PersistentHash) (key value w : List Nat),
      Get ph key = some w → Put ph key value = (ph2, none) →
      ph2.usedSlots = ph.usedSlots ∧ ph2.numSlots = ph.numSlots) ∧
    (∀ (ph : PersistentHash) (key value : List Nat) (rc c : Nat),
      rc ≤ 3 →
      probe ph.data.slots ph.numSlots key (hashKey key % ph.numSlots) 0
        ph.numSlots = .empty c →
      loadFactorExceeded ph.usedSlots ph.numSlots = true →
      putWithRetry ph key value rc =
        (match resize ph with
         | .ok ph2 => putWithRetry ph2 key value (rc + 1)
         | .error e => (ph, some e))) := by
  refine ⟨?_, ?_, ?_⟩
  · intro ph ph2 key value h hget hput
    unfold Put at hput
    by_cases hv : key.length = ph.keySize ∧ value.length = ph.valueSize
    · rw [if_pos hv] at hput
      have hres := putWithRetry_insert_load h hv.1 hv.2 hget 0
      rw [hput] at hres
      exact hres rfl
    · rw [if_neg hv] at hput
      injection hput with _ h2
      exact Option.noConfusion h2
  · intro ph ph2 key value w hget hput
    have hkl : key.length = ph.keySize := by
      by_contra hcon
      rw [Get_eq, if_neg hcon] at hget
      exact Option.noConfusion hget
    have hmg : mapGet ph.data.slots ph.numSlots key = some w := by
      rw [Get_eq, if_pos hkl] at hget
      exact hget
    unfold mapGet at hmg
    unfold Put at hput
    by_cases hv : key.length = ph.keySize ∧ value.length = ph.valueSize
    · rw [if_pos hv] at hput
      cases hp : probe ph.data.slots ph.numSlots key
          (hashKey key % ph.numSlots) 0 ph.numSlots with
      | empty c => rw [hp] at hmg; exact Option.noConfusion hmg
      | exhausted => rw [hp] at hmg; exact Option.noConfusion hmg
      | hit c =>
        rw [putWithRetry_step_hit (by omega) hp] at hput
        injection hput with h1 _
        rw [← h1]
        exact ⟨rfl, rfl⟩
    · rw [if_neg hv] at hput
      injection hput with _ h2
      exact Option.noConfusion h2
  · intro ph key value rc c hrc hp hlf
    rw [putWithRetry_eq, if_neg (by omega), hp]
    show (if loadFactorExceeded ph.usedSlots ph.numSlots then
        match resize ph with
        | .ok ph2 => putWithRetry ph2 key value (rc + 1)
        | .error e => (ph, some e)
      else _) = _
    rw [if_pos hlf]

/-- Witness for the amended C3: a concrete insert leaves a state whose
counts pass the program's `float32` check, and a concrete
over-threshold table resizes-then-retries instead of inserting. -/
theorem c3_witness :
    (0 < exT1.usedSlots ∧
      loadFactorExceeded (exT1.usedSlots - 1) exT1.numSlots = false) ∧
    putWithRetry exTF [7] [8] 0 =
      (match resize exTF with
       | .ok ph2 => putWithRetry ph2 [7] [8] 1
       | .error e => (exTF, some e)) := by
  constructor
  · exact c3_load_factor_float32.1 exT0 exT1 [3] [4] inv_exT0 rfl put_exT1
  · have hp : probe exTF.data.slots exTF.numSlots [7]
        (hashKey [7] % exTF.numSlots) 0 exTF.numSlots =
        .empty (hashKey [7] % 1024) := rfl
    have hlf : loadFactorExceeded exTF.usedSlots exTF.numSlots = true := by
      decide
    exact c3_load_factor_float32.2.2 exTF [7] [8] 0 (hashKey [7] % 1024)
      (by omega) hp hlf

/-- Claim C4: closing a table and reopening the same file with the same
key/value sizes yields a table on which `Get` returns exactly the same
result for every key as before the `Close`. -/
theorem c4_persistence {ph : PersistentHash} (h : Inv ph) :
    ∃ ph2, Open (some (Close ph)) ph.keySize ph.valueSize = .ok ph2 ∧
      ∀ key, Get ph2 key = Get ph key := by
  refine ⟨ph, ?_, fun key => rfl⟩
  have hopen := Open_some ph.data ph.keySize ph.valueSize h.hMagic
  rw [h.hKey, h.hVal, h.hSlot, h.hNum, h.hUsed] at hopen
  exact hopen

/-- Witness for C4 at a concrete table. -/
theorem c4_witness :
    ∃ ph2, Open (some (Close (openNew 2 3))) (openNew 2 3).keySize
      (openNew 2 3).valueSize = .ok ph2 ∧
      ∀ key, Get ph2 key = Get (openNew 2 3) key :=
  c4_persistence (@openNew_inv 2 3 (by norm_num [u32Mod]))

/-- Claim C5: a `Put` whose key or value length differs from the
declared sizes returns a `ValidationError` and leaves the table state
unchanged (the returned state is the argument state itself); a `Get`
with a mismatched key length reports not-found rather than erroring.
`Get` is a pure reader in this model — it acquires only the read lock
and writes nothing — so it cannot mutate the state. -/
theorem c5_validation (ph : PersistentHash) (key value key2 : List Nat)
    (h1 : ¬(key.length = ph.keySize ∧ value.length = ph.valueSize))
    (h2 : ¬ key2.length = ph.keySize) :
    Put ph key value = (ph, some .validationError) ∧ Get ph key2 = none := by
  constructor
  · unfold Put
    rw [if_neg h1]
  · rw [Get_eq, if_neg h2]

/-- Witness for C5 with a short key on a `keySize = 2` table. -/
theorem c5_witness :
    Put (openNew 2 2) [1] [2, 2] = (openNew 2 2, some .validationError) ∧
    Get (openNew 2 2) [1] = none :=
  c5_validation (openNew 2 2) [1] [2, 2] [1] (by decide) (by decide)

/-- Claim C7: within a single `Put` call, resize-triggered retries are
bounded to at most 3: `putWithRetry` is entered with `retryCount = 0`,
each resize-triggered retry re-enters it with `retryCount + 1`, and any
entry with `retryCount > 3` — the would-be fourth retry — returns the
`RetryExhausted` error instead of succeeding. -/
theorem c7_retry_bound (ph : PersistentHash) (key value : List Nat)
    (rc : Nat) (h : rc > 3) :
    putWithRetry ph key value rc = (ph, some .retryExhausted) :=
  putWithRetry_step_retry h

/-- Witness for C7 at `retryCount = 4`. -/
theorem c7_witness :
    putWithRetry (openNew 1 1) [0] [0] 4 =
      (openNew 1 1, some .retryExhausted) :=
  c7_retry_bound (openNew 1 1) [0] [0] 4 (by omega)

/-- Claim C10: on every open of an existing non-empty file whose magic
number is valid, `Open` succeeds and the handle's cached `keySize`,
`valueSize`, `slotSize`, `numSlots` and `usedSlots` are taken solely
from the file's header; the `keySize`/`valueSize` arguments are ignored
and no error is returned even when they differ from the stored sizes. -/
theorem c10_open_ignores_args (fd : FileData) (ks vs : Nat)
    (h : fd.magic = magicNumber) :
    Open (some fd) ks vs =
      .ok { data := fd, keySize := fd.hKeySize, valueSize := fd.hValueSize,
            slotSize := fd.hSlotSize, numSlots := fd.hNumSlots,
            usedSlots := fd.hUsedSlots } :=
  Open_some fd ks vs h

/-- Witness for C10: reopening a `keySize = valueSize = 2` file with
declared sizes 99 and 77 succeeds and the handle carries the header's
geometry. -/
theorem c10_witness :
    Open (some (Close (openNew 2 2))) 99 77 =
      .ok { data := Close (openNew 2 2), keySize := 2, valueSize := 2,
            slotSize := 5, numSlots := 1024, usedSlots := 0 } :=
  c10_open_ignores_args (Close (openNew 2 2)) 99 77 rfl

/-- Claim C6: a `Put` whose key already occupies a slot on its probe
path (equivalently, a key the table currently finds) overwrites only
that slot's value bytes and returns success: the cached `usedSlots` and
the header's used-slots bytes, `numSlots` and its header bytes, the
cached sizes, the slot's status byte and key bytes, and every other
slot are unchanged, and a subsequent `Get` returns the newest value. -/
theorem c6_overwrite_frame {ph : PersistentHash} {key value w : List Nat}
    (hfound : Get ph key = some w) (hvl : value.length = ph.valueSize) :
    ∃ c ph2, Put ph key value = (ph2, none) ∧
      ph2.usedSlots = ph.usedSlots ∧
      ph2.data.hUsedSlots = ph.data.hUsedSlots ∧
      ph2.numSlots = ph.numSlots ∧
      ph2.data.hNumSlots = ph.data.hNumSlots ∧
      ph2.keySize = ph.keySize ∧ ph2.valueSize = ph.valueSize ∧
      ph2.slotSize = ph.slotSize ∧
      c < ph.numSlots ∧
      (ph2.data.slots.getD c defSlot).status =
        (ph.data.slots.getD c defSlot).status ∧
      (ph2.data.slots.getD c defSlot).key =
        (ph.data.slots.getD c defSlot).key ∧
      (ph2.data.slots.getD c defSlot).value = value ∧
      (∀ j, j ≠ c → ph2.data.slots.getD j defSlot =
        ph.data.slots.getD j defSlot) ∧
      Get ph2 key = some value := by
  have hkl : key.length = ph.keySize := by
    by_contra hcon
    rw [Get_eq, if_neg hcon] at hfound
    exact Option.noConfusion hfound
  have hget2 : mapGet ph.data.slots ph.numSlots key = some w := by
    rw [Get_eq, if_pos hkl] at hfound
    exact hfound
  unfold mapGet at hget2
  cases hp : probe ph.data.slots ph.numSlots key (hashKey key % ph.numSlots)
      0 ph.numSlots with
  | empty c => rw [hp] at hget2; exact Option.noConfusion hget2
  | exhausted => rw [hp] at hget2; exact Option.noConfusion hget2
  | hit c =>
    obtain ⟨t, _, htn, htc, hst1, hkeyc, hbefore⟩ := probe_hit_spec hp
    have hn : 0 < ph.numSlots := by omega
    have hcn : c < ph.numSlots := by rw [htc]; exact pos_lt hn _ _
    have hclen : c < ph.data.slots.length := by
      by_contra hcon
      push_neg at hcon
      rw [getD_of_len_le _ _ _ hcon] at hst1
      simp [defSlot] at hst1
    have hgetc : (ph.data.slots.set c
        ⟨(ph.data.slots.getD c defSlot).status,
         (ph.data.slots.getD c defSlot).key, value⟩).getD c defSlot =
        ⟨(ph.data.slots.getD c defSlot).status,
         (ph.data.slots.getD c defSlot).key, value⟩ :=
      getD_set_self _ _ _ _ hclen
    have hput : Put ph key value =
        ({ ph with
            data := { ph.data with
                        slots := ph.data.slots.set c
                          ⟨(ph.data.slots.getD c defSlot).status,
                           (ph.data.slots.getD c defSlot).key, value⟩ } },
         none) := by
      unfold Put
      rw [if_pos ⟨hkl, hvl⟩]
      exact putWithRetry_step_hit (by omega) hp
    have hprobe2 : probe (ph.data.slots.set c
        ⟨(ph.data.slots.getD c defSlot).status,
         (ph.data.slots.getD c defSlot).key, value⟩) ph.numSlots key
        (hashKey key % ph.numSlots) 0 ph.numSlots = .hit c := by
      have hres := @probe_eq_hit_of (ph.data.slots.set c
          ⟨(ph.data.slots.getD c defSlot).status,
           (ph.data.slots.getD c defSlot).key, value⟩)
          ph.numSlots key (hashKey key % ph.numSlots)
          t ph.numSlots 0 (Nat.zero_le t) (by omega)
          ?_ ?_ ?_
      · rw [← htc] at hres
        exact hres
      · intro u _ hu hstop
        have hpuc : pos ph.numSlots (hashKey key % ph.numSlots) u ≠ c := by
          intro he
          apply hbefore u (Nat.zero_le u) hu
          rw [he]
          exact Or.inr ⟨hst1, hkeyc⟩
        rw [getD_set_ne _ _ _ _ _ (fun e => hpuc e.symm)] at hstop
        exact hbefore u (Nat.zero_le u) hu hstop
      · rw [← htc, hgetc]
        exact hst1
      · rw [← htc, hgetc]
        exact hkeyc
    refine ⟨c, _, hput, rfl, rfl, rfl, rfl, rfl, rfl, rfl, hcn, ?_, ?_, ?_,
      ?_, ?_⟩
    · show ((ph.data.slots.set c _).getD c defSlot).status = _
      rw [hgetc]
    · show ((ph.data.slots.set c _).getD c defSlot).key = _
      rw [hgetc]
    · show ((ph.data.slots.set c _).getD c defSlot).value = value
      rw [hgetc]
    · intro j hj
      exact getD_set_ne _ _ _ _ _ (fun e => hj e.symm)
    · rw [Get_eq, if_pos hkl]
      show mapGet (ph.data.slots.set c
        ⟨(ph.data.slots.getD c defSlot).status,
         (ph.data.slots.getD c defSlot).key, value⟩) ph.numSlots key =
        some value
      unfold mapGet
      rw [hprobe2]
      show some (((ph.data.slots.set c
        ⟨(ph.data.slots.getD c defSlot).status,
         (ph.data.slots.getD c defSlot).key, value⟩).getD c defSlot)).value =
        some value
      rw [hgetc]

/-- Witness for C6: overwriting the stored key `[3]` with a new value on
a concrete table. -/
theorem c6_witness :
    ∃ c ph2, Put exT1 [3] [9] = (ph2, none) ∧
      ph2.usedSlots = exT1.usedSlots ∧
      ph2.data.hUsedSlots = exT1.data.hUsedSlots ∧
      ph2.numSlots = exT1.numSlots ∧
      ph2.data.hNumSlots = exT1.data.hNumSlots ∧
      ph2.keySize = exT1.keySize ∧ ph2.valueSize = exT1.valueSize ∧
      ph2.slotSize = exT1.slotSize ∧
      c < exT1.numSlots ∧
      (ph2.data.slots.getD c defSlot).status =
        (exT1.data.slots.getD c defSlot).status ∧
      (ph2.data.slots.getD c defSlot).key =
        (exT1.data.slots.getD c defSlot).key ∧
      (ph2.data.slots.getD c defSlot).value = [9] ∧
      (∀ j, j ≠ c → ph2.data.slots.getD j defSlot =
        exT1.data.slots.getD j defSlot) ∧
      Get ph2 [3] = some [9] :=
  c6_overwrite_frame (w := [4]) rfl rfl

/-- Claim C8: in every table state reachable by any sequence of `Open`,
`Put`, `Get` and `resize` operations, no two distinct occupied slots
hold equal key bytes (`Get` is a pure reader contributing no
transition). -/
theorem c8_unique_keys {ph : PersistentHash} (h : Reachable ph) :
    ∀ i j, i < ph.data.slots.length → j < ph.data.slots.length → i ≠ j →
      (ph.data.slots.getD i defSlot).status = 1 →
      (ph.data.slots.getD j defSlot).status = 1 →
      (ph.data.slots.getD i defSlot).key ≠
        (ph.data.slots.getD j defSlot).key := by
  intro i j hi hj hne h1 h2
  have hinv := reachable_inv h
  exact hinv.table.uniq i j (by rw [← hinv.table.len]; exact hi)
    (by rw [← hinv.table.len]; exact hj) hne h1 h2

/-- Witness for C8: in the reachable table holding `[5] ↦ [7]` and
`[9] ↦ [3]`, the two occupied slots hold different keys. -/
theorem c8_witness :
    (exT59.data.slots.getD (hashKey [5] % 1024) defSlot).key ≠
      (exT59.data.slots.getD (hashKey [9] % 1024) defSlot).key := by
  have hre : Reachable exT59 :=
    Reachable.putStep exT5 exT59 [9] [3] none
      (Reachable.putStep exT0 exT5 [5] [7] none
        (Reachable.openTable 1 1 (by norm_num [u32Mod])) put_exT5)
      put_exT59
  exact c8_unique_keys hre (hashKey [5] % 1024) (hashKey [9] % 1024)
    (by decide) (by decide) (by decide) rfl rfl

/-- Claim C9 counterexample: the claim says that on reopen the slot size
recomputed from the declared key/value sizes must match the stored one
and that a mismatch must not yield a usable handle.  The code performs
no such check: opening a file whose header records sizes 8/8 (slot size
17) while declaring sizes 4/4 (recomputed slot size 9 ≠ 17) succeeds
and returns a fully usable handle built from the header. -/
theorem c9_counterexample :
    Open (some (Close (openNew 8 8))) 4 4 =
      .ok { data := Close (openNew 8 8), keySize := 8, valueSize := 8,
            slotSize := 17, numSlots := 1024, usedSlots := 0 } ∧
    (1 + 4 + 4 : Nat) ≠ 17 := by
  constructor
  · exact Open_some (Close (openNew 8 8)) 4 4 rfl
  · decide

/-- Claim C9 as amended: on every reopen of an existing file the handle's
`slotSize` (and all other geometry) is taken directly from the header;
the declared key/value sizes are not validated against it, and a
mismatch still yields a usable handle. -/
theorem c9_amended_no_slotsize_check :
    ∀ (fd : FileData) (ks vs : Nat) (ph2 : PersistentHash),
      Open (some fd) ks vs = .ok ph2 →
      ph2.slotSize = fd.hSlotSize ∧ ph2.keySize = fd.hKeySize ∧
      ph2.valueSize = fd.hValueSize ∧ ph2.numSlots = fd.hNumSlots ∧
      ph2.usedSlots = fd.hUsedSlots := by
  intro fd ks vs ph2 hopen
  by_cases h : fd.magic = magicNumber
  · rw [Open_some fd ks vs h] at hopen
    injection hopen with hopen
    rw [← hopen]
    exact ⟨rfl, rfl, rfl, rfl, rfl⟩
  · exfalso
    have hbad : Open (some fd) ks vs = .error .formatError := by
      show (if fd.magic = magicNumber then
          Except.ok ({ data := fd, keySize := fd.hKeySize,
                       valueSize := fd.hValueSize, slotSize := fd.hSlotSize,
                       numSlots := fd.hNumSlots,
                       usedSlots := fd.hUsedSlots } : PersistentHash)
        else Except.error PhError.formatError) = _
      rw [if_neg h]
    rw [hbad] at hopen
    exact Except.noConfusion hopen

/-- Witness for the amended C9 at the mismatched reopen of the
counterexample. -/
theorem c9_amended_witness :
    (17 : Nat) = (Close (openNew 8 8)).hSlotSize ∧
    (8 : Nat) = (Close (openNew 8 8)).hKeySize ∧
    (8 : Nat) = (Close (openNew 8 8)).hValueSize ∧
    (1024 : Nat) = (Close (openNew 8 8)).hNumSlots ∧
    (0 : Nat) = (Close (openNew 8 8)).hUsedSlots :=
  c9_amended_no_slotsize_check (Close (openNew 8 8)) 4 4
    { data := Close (openNew 8 8), keySize := 8, valueSize := 8,
      slotSize := 17, numSlots := 1024, usedSlots := 0 }
    (Open_some (Close (openNew 8 8)) 4 4 rfl)

end Phash
